import Mathlib

/-!
Verification of the dynamic protocol-buffer descriptor registry implemented
in src/descriptor.rs.

The registry stores message and enum descriptors in append-only sequences
and indexes them by fully-qualified name through insertion-ordered maps
(the linked-hash-map crate).  Message descriptors index their fields by
name and by number; enum descriptors index their values the same way.
Cross references between message types are stored as strings and rewritten
into integer handles by a separate resolution pass.

Modelling conventions:
* Rust `Vec` is a Lean `List`; `store` appends and returns the index of the
  new element, exactly as in the source.
* A `linked_hash_map::LinkedHashMap` is a `List (key × value)` in iteration
  order, oldest entry first.  `insert` on a fresh key appends at the end;
  `insert` on an existing key replaces the value and moves the entry to the
  most recent position (the crate detaches and re-attaches the node).
* The private id types `MessageId`, `EnumId`, `FieldId` and `EnumValueId`
  are `usize` newtypes; they are modelled as plain `Nat`.  Rust callers
  cannot construct them, which is captured by the side conditions of the
  `Built` predicate below.
* A Rust panic (out-of-bounds `Vec` indexing, or the `unimplemented!()` arm
  of the default-value parser) is modelled by `Option`/`none` results.
* Field numbers are `i32`; no arithmetic is ever performed on them, so they
  are modelled as `Int`.
-/

/-- Model of insertion into the insertion-ordered maps used for every index
in the registry (the linked-hash-map crate).  Inserting an existing key
replaces its value and moves the entry to the most recent position, which
is what the insert method of the crate does (it detaches and re-attaches
the existing node). -/
def lhmInsert {α β : Type} [DecidableEq α] (m : List (α × β)) (k : α) (v : β) :
    List (α × β) :=
  (m.filter (fun p => decide (p.1 ≠ k))) ++ [(k, v)]

/-- Model of linked-hash-map lookup: the value of the unique entry carrying
the given key, if any. -/
def lhmGet {α β : Type} [DecidableEq α] (m : List (α × β)) (k : α) : Option β :=
  (m.find? (fun p => decide (p.1 = k))).map Prod.snd

theorem lhmGet_nil {α β : Type} [DecidableEq α] (k : α) :
    lhmGet ([] : List (α × β)) k = none := rfl

theorem find?_filter_ne {α β : Type} [DecidableEq α] (m : List (α × β)) (k k' : α)
    (h : k' ≠ k) :
    (m.filter (fun p => decide (p.1 ≠ k))).find? (fun p => decide (p.1 = k')) =
      m.find? (fun p => decide (p.1 = k')) := by
  induction m with
  | nil => rfl
  | cons a t ih =>
    by_cases hak : a.1 = k
    · have hk' : ¬(a.1 = k') := fun hx => h (by rw [← hx, hak])
      rw [List.filter_cons, if_neg (by simp [hak]), List.find?_cons, decide_eq_false hk']
      exact ih
    · rw [List.filter_cons, if_pos (by simp [hak]), List.find?_cons, List.find?_cons]
      by_cases hak' : a.1 = k'
      · rw [decide_eq_true hak']
      · rw [decide_eq_false hak']
        exact ih

theorem lhmGet_insert_self {α β : Type} [DecidableEq α] (m : List (α × β)) (k : α) (v : β) :
    lhmGet (lhmInsert m k v) k = some v := by
  unfold lhmGet lhmInsert
  rw [List.find?_append]
  have hnone : (m.filter (fun p => decide (p.1 ≠ k))).find? (fun p => decide (p.1 = k)) =
      none := by
    rw [List.find?_eq_none]
    intro p hp
    have := List.of_mem_filter hp
    simp only [decide_eq_true_eq] at this ⊢
    exact this
  rw [hnone]
  simp

theorem lhmGet_insert_ne {α β : Type} [DecidableEq α] (m : List (α × β)) (k k' : α) (v : β)
    (h : k' ≠ k) : lhmGet (lhmInsert m k v) k' = lhmGet m k' := by
  unfold lhmGet lhmInsert
  rw [List.find?_append, find?_filter_ne m k k' h]
  cases m.find? (fun p => decide (p.1 = k')) with
  | some p => rfl
  | none =>
    have hk : ¬((k : α) = k') := fun hx => h hx.symm
    simp [List.find?_cons, hk]

theorem lhmGet_mem {α β : Type} [DecidableEq α] {m : List (α × β)} {k : α} {v : β}
    (h : lhmGet m k = some v) : (k, v) ∈ m := by
  unfold lhmGet at h
  cases hf : m.find? (fun p => decide (p.1 = k)) with
  | none => rw [hf] at h; exact absurd h (by simp)
  | some p =>
    rw [hf] at h
    have hmem := List.mem_of_find?_eq_some hf
    have hkey := List.find?_some hf
    simp only [decide_eq_true_eq] at hkey
    have h2 : p.2 = v := Option.some.inj h
    have : p = (k, v) := by
      cases p with
      | mk a b => simp only at hkey h2; rw [hkey, h2]
    rw [← this]; exact hmem

theorem find?_eq_of_mem_nodupKeys {α β : Type} [DecidableEq α] {m : List (α × β)}
    {k : α} {v : β} (hmem : (k, v) ∈ m) (hnd : (m.map Prod.fst).Nodup) :
    m.find? (fun p => decide (p.1 = k)) = some (k, v) := by
  induction m with
  | nil => exact absurd hmem (by simp)
  | cons a t ih =>
    rcases List.mem_cons.mp hmem with heq | hmemt
    · rw [← heq]
      exact List.find?_cons_of_pos t (by simp)
    · have hnd' : (a.1 :: t.map Prod.fst).Nodup := by simpa using hnd
      have hin : a.1 ∉ t.map Prod.fst := (List.nodup_cons.mp hnd').1
      have hak : ¬(a.1 = k) := by
        intro hk
        exact hin (hk ▸ (List.mem_map.mpr ⟨(k, v), hmemt, rfl⟩))
      rw [List.find?_cons, decide_eq_false hak]
      exact ih hmemt (List.nodup_cons.mp hnd').2

theorem lhmGet_eq_some_iff {α β : Type} [DecidableEq α] {m : List (α × β)}
    (hnd : (m.map Prod.fst).Nodup) (k : α) (v : β) :
    lhmGet m k = some v ↔ (k, v) ∈ m := by
  constructor
  · exact lhmGet_mem
  · intro hmem
    unfold lhmGet
    rw [find?_eq_of_mem_nodupKeys hmem hnd]
    rfl

theorem map_fst_filter_ne {α β : Type} [DecidableEq α] (m : List (α × β)) (k : α) :
    (m.filter (fun p => decide (p.1 ≠ k))).map Prod.fst =
      (m.map Prod.fst).filter (fun a => decide (a ≠ k)) := by
  induction m with
  | nil => rfl
  | cons a t ih =>
    by_cases hak : a.1 = k
    · rw [List.map_cons, List.filter_cons, List.filter_cons, if_neg (by simp [hak]),
        if_neg (by simp [hak]), ih]
    · rw [List.map_cons, List.filter_cons, List.filter_cons, if_pos (by simp [hak]),
        if_pos (by simp [hak]), List.map_cons, ih]

theorem lhmInsert_keys {α β : Type} [DecidableEq α] (m : List (α × β)) (k : α) (v : β) :
    (lhmInsert m k v).map Prod.fst =
      ((m.map Prod.fst).filter (fun a => decide (a ≠ k))) ++ [k] := by
  unfold lhmInsert
  rw [List.map_append, map_fst_filter_ne]
  rfl

theorem lhmInsert_nodupKeys {α β : Type} [DecidableEq α] {m : List (α × β)}
    (hnd : (m.map Prod.fst).Nodup) (k : α) (v : β) :
    ((lhmInsert m k v).map Prod.fst).Nodup := by
  rw [lhmInsert_keys]
  apply List.Nodup.append
  · exact List.Nodup.filter _ hnd
  · exact List.nodup_singleton k
  · intro a ha hb
    have := List.of_mem_filter ha
    simp only [decide_eq_true_eq] at this
    simp only [List.mem_singleton] at hb
    exact this hb

theorem lhmInsert_keys_getLast {α β : Type} [DecidableEq α] (m : List (α × β)) (k : α)
    (v : β) : ((lhmInsert m k v).map Prod.fst).getLast? = some k := by
  rw [lhmInsert_keys]
  rw [List.getLast?_append]
  rfl

theorem lhmInsert_of_not_mem_keys {α β : Type} [DecidableEq α] {m : List (α × β)} {k : α}
    (h : k ∉ m.map Prod.fst) (v : β) : lhmInsert m k v = m ++ [(k, v)] := by
  unfold lhmInsert
  congr 1
  apply List.filter_eq_self.mpr
  intro p hp
  simp only [decide_eq_true_eq]
  intro hk
  exact h (List.mem_map.mpr ⟨p, hp, hk⟩)

/-- The correspondence between one of the append-only descriptor sequences
and its by-key index: entry keys are unique, every entry points at the most
recently stored item carrying its key, and the key of every stored item is
present in the index. -/
structure IndexInv {α A : Type} [DecidableEq α] (key : A → α) (items : List A)
    (index : List (α × Nat)) : Prop where
  nodupKeys : (index.map Prod.fst).Nodup
  mem_iff : ∀ k i, (k, i) ∈ index ↔
    ∃ h : i < items.length, key (items.get ⟨i, h⟩) = k ∧
      ∀ j (hj : j < items.length), i < j → key (items.get ⟨j, hj⟩) ≠ k
  covered : ∀ i (hi : i < items.length), ∃ j, (key (items.get ⟨i, hi⟩), j) ∈ index

theorem IndexInv.nil {α A : Type} [DecidableEq α] (key : A → α) :
    IndexInv key ([] : List A) [] := by
  refine ⟨List.nodup_nil, ?_, ?_⟩
  · intro k i
    simp
  · intro i hi
    exact absurd hi (by simp)

theorem mem_lhmInsert_iff {α β : Type} [DecidableEq α] (m : List (α × β)) (k0 : α) (v : β)
    (k : α) (b : β) :
    (k, b) ∈ lhmInsert m k0 v ↔ ((k, b) ∈ m ∧ k ≠ k0) ∨ (k = k0 ∧ b = v) := by
  unfold lhmInsert
  rw [List.mem_append, List.mem_filter, List.mem_singleton, Prod.mk.injEq]
  simp only [decide_eq_true_eq]

theorem get_append_left {A : Type} (l : List A) (a : A) (i : Nat) (hi : i < l.length)
    (hi2 : i < (l ++ [a]).length) : (l ++ [a]).get ⟨i, hi2⟩ = l.get ⟨i, hi⟩ := by
  simp [List.get_eq_getElem, List.getElem_append_left hi]

theorem get_append_last {A : Type} (l : List A) (a : A) (h : l.length < (l ++ [a]).length) :
    (l ++ [a]).get ⟨l.length, h⟩ = a := by
  simp [List.get_eq_getElem]

theorem IndexInv.lookup_iff {α A : Type} [DecidableEq α] {key : A → α} {items : List A}
    {index : List (α × Nat)} (inv : IndexInv key items index) (k : α) (i : Nat) :
    lhmGet index k = some i ↔ (k, i) ∈ index :=
  lhmGet_eq_some_iff inv.nodupKeys k i

theorem IndexInv.lookup_bound {α A : Type} [DecidableEq α] {key : A → α} {items : List A}
    {index : List (α × Nat)} (inv : IndexInv key items index) {k : α} {i : Nat}
    (h : lhmGet index k = some i) :
    ∃ hi : i < items.length, key (items.get ⟨i, hi⟩) = k := by
  have hmem := lhmGet_mem h
  rcases (inv.mem_iff k i).mp hmem with ⟨hi, hkey, _⟩
  exact ⟨hi, hkey⟩

theorem IndexInv.lookup_last {α A : Type} [DecidableEq α] {key : A → α} {items : List A}
    {index : List (α × Nat)} (inv : IndexInv key items index) (i : Nat)
    (hi : i < items.length)
    (hlast : ∀ j (hj : j < items.length), i < j →
      key (items.get ⟨j, hj⟩) ≠ key (items.get ⟨i, hi⟩)) :
    lhmGet index (key (items.get ⟨i, hi⟩)) = some i := by
  rcases inv.covered i hi with ⟨j, hjmem⟩
  rcases (inv.mem_iff _ j).mp hjmem with ⟨hj, hkeyj, hlastj⟩
  have hij : j = i := by
    rcases lt_trichotomy j i with hlt | heq | hgt
    · exact absurd rfl (hlastj i hi hlt)
    · exact heq
    · exact absurd hkeyj (hlast j hj hgt)
  exact (inv.lookup_iff _ i).mpr (hij ▸ hjmem)

theorem IndexInv.add {α A : Type} [DecidableEq α] {key : A → α} {items : List A}
    {index : List (α × Nat)} (inv : IndexInv key items index) (a : A) :
    IndexInv key (items ++ [a]) (lhmInsert index (key a) items.length) := by
  have hlen : (items ++ [a]).length = items.length + 1 := by simp
  constructor
  · exact lhmInsert_nodupKeys inv.nodupKeys _ _
  · intro k i
    rw [mem_lhmInsert_iff]
    constructor
    · rintro (⟨hold, hne⟩ | ⟨hk, hiv⟩)
      · rcases (inv.mem_iff k i).mp hold with ⟨hi, hkey, hlast⟩
        refine ⟨by rw [hlen]; omega, ?_, ?_⟩
        · rw [get_append_left items a i hi]
          exact hkey
        · intro j hj hij
          by_cases hjl : j < items.length
          · rw [get_append_left items a j hjl]
            exact hlast j hjl hij
          · have hja : j = items.length := by rw [hlen] at hj; omega
            subst hja
            rw [get_append_last items a hj]
            exact fun hx => hne hx.symm
      · subst hk
        subst hiv
        refine ⟨by omega, ?_, ?_⟩
        · rw [get_append_last items a (by omega)]
        · intro j hj hij
          rw [hlen] at hj
          omega
    · rintro ⟨hi, hkey, hlast⟩
      by_cases hil : i < items.length
      · left
        rw [get_append_left items a i hil] at hkey
        have hne : k ≠ key a := by
          intro hk
          have := hlast items.length (by omega) hil
          rw [get_append_last items a (by omega)] at this
          exact this hk.symm
        refine ⟨(inv.mem_iff k i).mpr ⟨hil, hkey, ?_⟩, hne⟩
        intro j hj hij
        have := hlast j (by rw [hlen]; omega) hij
        rw [get_append_left items a j hj] at this
        exact this
      · right
        have hie : i = items.length := by rw [hlen] at hi; omega
        subst hie
        rw [get_append_last items a hi] at hkey
        exact ⟨hkey.symm, rfl⟩
  · intro i hi
    by_cases hil : i < items.length
    · rw [get_append_left items a i hil]
      rcases inv.covered i hil with ⟨j, hjmem⟩
      by_cases hka : key (items.get ⟨i, hil⟩) = key a
      · exact ⟨items.length, (mem_lhmInsert_iff _ _ _ _ _).mpr (Or.inr ⟨hka, rfl⟩)⟩
      · exact ⟨j, (mem_lhmInsert_iff _ _ _ _ _).mpr (Or.inl ⟨hjmem, hka⟩)⟩
    · have hie : i = items.length := by rw [hlen] at hi; omega
      subst hie
      rw [get_append_last items a hi]
      exact ⟨items.length, (mem_lhmInsert_iff _ _ _ _ _).mpr (Or.inr ⟨rfl, rfl⟩)⟩

theorem IndexInv.map_items {α A : Type} [DecidableEq α] {key : A → α} {items : List A}
    {index : List (α × Nat)} (inv : IndexInv key items index) (g : A → A)
    (hg : ∀ x, key (g x) = key x) : IndexInv key (items.map g) index := by
  have hlen : (items.map g).length = items.length := by simp
  have hget : ∀ i (hi : i < (items.map g).length),
      key ((items.map g).get ⟨i, hi⟩) = key (items.get ⟨i, by rw [hlen] at hi; exact hi⟩) := by
    intro i hi
    simp only [List.get_eq_getElem, List.getElem_map]
    exact hg _
  constructor
  · exact inv.nodupKeys
  · intro k i
    rw [inv.mem_iff k i]
    constructor
    · rintro ⟨hi, hkey, hlast⟩
      refine ⟨by rw [hlen]; exact hi, ?_, ?_⟩
      · rw [hget i (by rw [hlen]; exact hi)]
        exact hkey
      · intro j hj hij
        rw [hget j hj]
        exact hlast j (by rw [hlen] at hj; exact hj) hij
    · rintro ⟨hi, hkey, hlast⟩
      have hi' : i < items.length := by rw [hlen] at hi; exact hi
      refine ⟨hi', ?_, ?_⟩
      · rw [hget i hi] at hkey
        exact hkey
      · intro j hj hij
        have := hlast j (by rw [hlen]; exact hj) hij
        rw [hget j (by rw [hlen]; exact hj)] at this
        exact this
  · intro i hi
    rw [hget i hi]
    exact inv.covered i (by rw [hlen] at hi; exact hi)

/-- Modelled from the spec: the payload of a floating-point scalar value.
The spec treats the runtime value representation as an external tagged
union and floating-point semantics are outside the shallow embedding, so a
float value is represented by the distinctions the source makes: the three
special tokens recognised in descriptor.rs, or an opaque token produced by
the platform parser for any other accepted string. -/
inductive FloatLit : Type where
  | inf : FloatLit
  | neginf : FloatLit
  | nan : FloatLit
  | finite : String → FloatLit
deriving DecidableEq, Repr

/-- Modelled from the spec: the external scalar value module (value::Value),
"a tagged-union scalar value type".  Integer payloads are mathematical
integers; the source only ever stores values produced by range-checked
parses, so no wrap-around can occur. -/
inductive Value : Type where
  | Bool : Bool → Value
  | I32 : Int → Value
  | I64 : Int → Value
  | U32 : Int → Value
  | U64 : Int → Value
  | F32 : FloatLit → Value
  | F64 : FloatLit → Value
  | Bytes : List Nat → Value
  | String : String → Value
deriving DecidableEq, Repr

/-- Modelled from the spec: the error kind surfaced by the core
(BadDefaultValue carrying the offending default string). -/
inductive Error : Type where
  | BadDefaultValue : (default_value : String) → Error
deriving DecidableEq, Repr

/-- Outcome of parse_default_value.  The Group arm of the source runs
unimplemented!(), i.e. it panics instead of returning; that third outcome
is the unimplemented constructor. -/
inductive ParseOutcome : Type where
  | ok : Value → ParseOutcome
  | err : Error → ParseOutcome
  | unimplemented : ParseOutcome
deriving DecidableEq, Repr

/-- The platform floating-point string parsers (f64::from_str and
f32::from_str from the Rust standard library, outside this repository).
The development is parameterised over them; no claim depends on their
behaviour. -/
structure FloatParsers : Type where
  f64FromStr : String → Option FloatLit
  f32FromStr : String → Option FloatLit

/-- A label that a field can be given to indicate its cardinality. -/
inductive FieldLabel : Type where
  | Optional : FieldLabel
  | Required : FieldLabel
  | Repeated : FieldLabel
deriving DecidableEq, Repr

/-- The internally tracked type of a field.  Message and Enum carry the
private ids (usize newtypes in the source, here plain Nat). -/
inductive InternalFieldType : Type where
  | UnresolvedMessage : String → InternalFieldType
  | UnresolvedEnum : String → InternalFieldType
  | Double : InternalFieldType
  | Float : InternalFieldType
  | Int64 : InternalFieldType
  | UInt64 : InternalFieldType
  | Int32 : InternalFieldType
  | Fixed64 : InternalFieldType
  | Fixed32 : InternalFieldType
  | Bool : InternalFieldType
  | String : InternalFieldType
  | Group : InternalFieldType
  | Message : Nat → InternalFieldType
  | Bytes : InternalFieldType
  | UInt32 : InternalFieldType
  | Enum : Nat → InternalFieldType
  | SFixed32 : InternalFieldType
  | SFixed64 : InternalFieldType
  | SInt32 : InternalFieldType
  | SInt64 : InternalFieldType
deriving DecidableEq, Repr

/-- Model of Rust bool::from_str: exactly "true" or "false". -/
def boolFromStr (s : String) : Option Bool :=
  if s = "true" then some true
  else if s = "false" then some false
  else none

/-- An ASCII decimal digit. -/
def isDecDigit (c : Char) : Bool :=
  decide ('0' ≤ c) && decide (c ≤ '9')

/-- Numeric value of a digit string, most significant digit first. -/
def decDigitsVal (cs : List Char) : Nat :=
  cs.foldl (fun a c => a * 10 + (c.toNat - '0'.toNat)) 0

/-- One or more ASCII decimal digits, evaluated; otherwise none. -/
def parseDecDigits (cs : List Char) : Option Nat :=
  if cs.isEmpty then none
  else if cs.all isDecDigit then some (decDigitsVal cs) else none

/-- Model of Rust integer from_str / from_str_radix with radix 10 for an
integer type with bounds lo and hi: an optional leading sign (minus only
for signed types) followed by one or more decimal digits; the digits are
accumulated with checked arithmetic, so the parse succeeds exactly when
the denoted value lies within the bounds. -/
def rustIntFromStr (signed : Bool) (lo hi : Int) (s : String) : Option Int :=
  match s.data with
  | [] => none
  | c :: rest =>
    if c = '+' then
      (parseDecDigits rest).bind fun n =>
        if (n : Int) ≤ hi then some (n : Int) else none
    else if c = '-' then
      if signed then
        (parseDecDigits rest).bind fun n =>
          if lo ≤ -(n : Int) then some (-(n : Int)) else none
      else none
    else
      (parseDecDigits (c :: rest)).bind fun n =>
        if (n : Int) ≤ hi then some (n : Int) else none

def i32FromStr : String → Option Int := rustIntFromStr true (-(2 ^ 31)) (2 ^ 31 - 1)

def i64FromStr : String → Option Int := rustIntFromStr true (-(2 ^ 63)) (2 ^ 63 - 1)

def u32FromStr : String → Option Int := rustIntFromStr false 0 (2 ^ 32 - 1)

def u64FromStr : String → Option Int := rustIntFromStr false 0 (2 ^ 64 - 1)

/-- Model of parse_default_value from the source: decodes a textual default
value against a field type.  The flp parameter supplies the platform float
parsers for the fallback branches of Double and Float; the special tokens
are matched in the source itself.  The Group arm of the source calls
unimplemented!(). -/
def parse_default_value (flp : FloatParsers) (value : String)
    (field_type : InternalFieldType) : ParseOutcome :=
  match field_type with
  | .UnresolvedMessage _ => .err (.BadDefaultValue value)
  | .UnresolvedEnum _ => .err (.BadDefaultValue value)
  | .Message _ => .err (.BadDefaultValue value)
  | .Enum _ => .err (.BadDefaultValue value)
  | .Bool =>
    match boolFromStr value with
    | some b => .ok (.Bool b)
    | none => .err (.BadDefaultValue value)
  | .Double =>
    if value = "inf" then .ok (.F64 .inf)
    else if value = "-inf" then .ok (.F64 .neginf)
    else if value = "nan" then .ok (.F64 .nan)
    else
      match flp.f64FromStr value with
      | some x => .ok (.F64 x)
      | none => .err (.BadDefaultValue value)
  | .Float =>
    if value = "inf" then .ok (.F32 .inf)
    else if value = "-inf" then .ok (.F32 .neginf)
    else if value = "nan" then .ok (.F32 .nan)
    else
      match flp.f32FromStr value with
      | some x => .ok (.F32 x)
      | none => .err (.BadDefaultValue value)
  | .Int32 | .SFixed32 | .SInt32 =>
    match i32FromStr value with
    | some n => .ok (.I32 n)
    | none => .err (.BadDefaultValue value)
  | .Int64 | .SFixed64 | .SInt64 =>
    match i64FromStr value with
    | some n => .ok (.I64 n)
    | none => .err (.BadDefaultValue value)
  | .UInt32 | .Fixed32 =>
    match u32FromStr value with
    | some n => .ok (.U32 n)
    | none => .err (.BadDefaultValue value)
  | .UInt64 | .Fixed64 =>
    match u64FromStr value with
    | some n => .ok (.U64 n)
    | none => .err (.BadDefaultValue value)
  | .String => .ok (.String value)
  | .Group => .unimplemented
  | .Bytes => .ok (.Bytes (value.data.map (fun c => c.toNat % 256)))

/-- The label enum of a field descriptor proto. -/
inductive ProtoLabel : Type where
  | LABEL_OPTIONAL : ProtoLabel
  | LABEL_REQUIRED : ProtoLabel
  | LABEL_REPEATED : ProtoLabel
deriving DecidableEq, Repr

/-- The type enum of a field descriptor proto. -/
inductive ProtoType : Type where
  | TYPE_DOUBLE | TYPE_FLOAT | TYPE_INT64 | TYPE_UINT64 | TYPE_INT32
  | TYPE_FIXED64 | TYPE_FIXED32 | TYPE_BOOL | TYPE_STRING | TYPE_GROUP
  | TYPE_MESSAGE | TYPE_BYTES | TYPE_UINT32 | TYPE_ENUM | TYPE_SFIXED32
  | TYPE_SFIXED64 | TYPE_SINT32 | TYPE_SINT64
deriving DecidableEq, Repr

/-- A decoded field descriptor proto.  The protobuf accessors name(),
number(), label(), type_(), type_name(), default_value() and
proto3_optional() are the fields; has_default_value() is an explicit flag,
matching how the source consults it before reading default_value(). -/
structure FieldDescriptorProto : Type where
  name : String
  number : Int
  label : ProtoLabel
  type_ : ProtoType
  type_name : String
  has_default_value : Bool
  default_value : String
  proto3_optional : Bool
deriving DecidableEq, Repr

/-- A decoded enum value descriptor proto. -/
structure EnumValueDescriptorProto : Type where
  name : String
  number : Int
deriving DecidableEq, Repr

/-- A decoded enum descriptor proto. -/
structure EnumDescriptorProto : Type where
  name : String
  value : List EnumValueDescriptorProto
deriving DecidableEq, Repr

/-- A decoded message descriptor proto with its nested types. -/
inductive DescriptorProto : Type where
  | mk (name : String) (field : List FieldDescriptorProto)
      (nested_type : List DescriptorProto) (enum_type : List EnumDescriptorProto)

def DescriptorProto.name : DescriptorProto → String
  | .mk n _ _ _ => n

def DescriptorProto.field : DescriptorProto → List FieldDescriptorProto
  | .mk _ f _ _ => f

def DescriptorProto.nested_type : DescriptorProto → List DescriptorProto
  | .mk _ _ l _ => l

def DescriptorProto.enum_type : DescriptorProto → List EnumDescriptorProto
  | .mk _ _ _ e => e

/-- A decoded file descriptor proto; package models has_package()/package(). -/
structure FileDescriptorProto : Type where
  package : Option String
  message_type : List DescriptorProto
  enum_type : List EnumDescriptorProto

/-- A decoded file descriptor set. -/
structure FileDescriptorSet : Type where
  file : List FileDescriptorProto

/-- A descriptor for a single protocol buffer message field. -/
structure FieldDescriptor : Type where
  name : String
  number : Int
  field_label : FieldLabel
  field_type : InternalFieldType
  default_value : Option Value
  optional : Bool
deriving DecidableEq, Repr

/-- A descriptor for a single protocol buffer message type.  The maps are
the two linked-hash-map indices of the source, with FieldId values as Nat. -/
structure MessageDescriptor : Type where
  name : String
  fields : List FieldDescriptor
  fields_by_name : List (String × Nat)
  fields_by_number : List (Int × Nat)
deriving DecidableEq, Repr

/-- A descriptor for a single protocol buffer enum value. -/
structure EnumValueDescriptor : Type where
  name : String
  number : Int
deriving DecidableEq, Repr

/-- A descriptor for a single protocol buffer enum type. -/
structure EnumDescriptor : Type where
  name : String
  values : List EnumValueDescriptor
  values_by_name : List (String × Nat)
  values_by_number : List (Int × Nat)
deriving DecidableEq, Repr

/-- A registry for any number of protocol buffer descriptors. -/
structure Descriptors : Type where
  messages : List MessageDescriptor
  enums : List EnumDescriptor
  messages_by_name : List (String × Nat)
  enums_by_name : List (String × Nat)
deriving DecidableEq, Repr

/-- The externally visible type of a field; resolved variants carry the
referenced descriptor itself (the source borrows it from the registry). -/
inductive FieldType : Type where
  | UnresolvedMessage : String → FieldType
  | UnresolvedEnum : String → FieldType
  | Double | Float | Int64 | UInt64 | Int32 | Fixed64 | Fixed32 | Bool
  | String | Group
  | Message : MessageDescriptor → FieldType
  | Bytes | UInt32
  | Enum : EnumDescriptor → FieldType
  | SFixed32 | SFixed64 | SInt32 | SInt64
deriving DecidableEq, Repr

/-- Model of the private helper store: push the element and return the
index it was stored at. -/
def store {A : Type} (vec : List A) (elem : A) : List A × Nat :=
  (vec ++ [elem], vec.length)

/-- Creates a new empty descriptor set. -/
def Descriptors.new : Descriptors :=
  { messages := [], enums := [], messages_by_name := [], enums_by_name := [] }

/-- Looks up a message by its fully qualified name.  The source indexes the
message vector with the id from the map, which panics when out of bounds;
the panic is modelled by the inner lookup returning none. -/
def Descriptors.message_by_name (d : Descriptors) (name : String) :
    Option MessageDescriptor :=
  (lhmGet d.messages_by_name name).bind fun m => d.messages.get? m

/-- Looks up an enum by its fully qualified name. -/
def Descriptors.enum_by_name (d : Descriptors) (name : String) :
    Option EnumDescriptor :=
  (lhmGet d.enums_by_name name).bind fun e => d.enums.get? e

/-- Adds a single custom built message descriptor. -/
def Descriptors.add_message (d : Descriptors) (descriptor : MessageDescriptor) :
    Descriptors :=
  let name := descriptor.name
  let stored := store d.messages descriptor
  { d with
    messages := stored.1
    messages_by_name := lhmInsert d.messages_by_name name stored.2 }

/-- Adds a single custom built enum descriptor. -/
def Descriptors.add_enum (d : Descriptors) (descriptor : EnumDescriptor) :
    Descriptors :=
  let name := descriptor.name
  let stored := store d.enums descriptor
  { d with
    enums := stored.1
    enums_by_name := lhmInsert d.enums_by_name name stored.2 }

/-- Creates a new message descriptor with the specified message name. -/
def MessageDescriptor.new (name : String) : MessageDescriptor :=
  { name := name, fields := [], fields_by_name := [], fields_by_number := [] }

/-- All of the fields in the descriptor. -/
def MessageDescriptor.fields_list (m : MessageDescriptor) : List FieldDescriptor :=
  m.fields

/-- Finds a field by field name. -/
def MessageDescriptor.field_by_name (m : MessageDescriptor) (name : String) :
    Option FieldDescriptor :=
  (lhmGet m.fields_by_name name).bind fun f => m.fields.get? f

/-- Finds a field by field number. -/
def MessageDescriptor.field_by_number (m : MessageDescriptor) (number : Int) :
    Option FieldDescriptor :=
  (lhmGet m.fields_by_number number).bind fun f => m.fields.get? f

/-- Adds a new field to the descriptor. -/
def MessageDescriptor.add_field (m : MessageDescriptor) (descriptor : FieldDescriptor) :
    MessageDescriptor :=
  let name := descriptor.name
  let number := descriptor.number
  let stored := store m.fields descriptor
  { m with
    fields := stored.1
    fields_by_name := lhmInsert m.fields_by_name name stored.2
    fields_by_number := lhmInsert m.fields_by_number number stored.2 }

/-- Creates a new enum descriptor with the specified enum name. -/
def EnumDescriptor.new (name : String) : EnumDescriptor :=
  { name := name, values := [], values_by_name := [], values_by_number := [] }

/-- Adds an enum value to the enum. -/
def EnumDescriptor.add_value (e : EnumDescriptor) (descriptor : EnumValueDescriptor) :
    EnumDescriptor :=
  let name := descriptor.name
  let number := descriptor.number
  let stored := store e.values descriptor
  { e with
    values := stored.1
    values_by_name := lhmInsert e.values_by_name name stored.2
    values_by_number := lhmInsert e.values_by_number number stored.2 }

/-- Finds a value by name. -/
def EnumDescriptor.value_by_name (e : EnumDescriptor) (name : String) :
    Option EnumValueDescriptor :=
  (lhmGet e.values_by_name name).bind fun v => e.values.get? v

/-- Finds a value by number. -/
def EnumDescriptor.value_by_number (e : EnumDescriptor) (number : Int) :
    Option EnumValueDescriptor :=
  (lhmGet e.values_by_number number).bind fun v => e.values.get? v

/-- Creates a new enum value descriptor with the given number. -/
def EnumValueDescriptor.new (name : String) (number : Int) : EnumValueDescriptor :=
  { name := name, number := number }

/-- Reads an enum value descriptor from a parsed Protobuf descriptor. -/
def EnumValueDescriptor.from_proto (proto : EnumValueDescriptorProto) :
    EnumValueDescriptor :=
  EnumValueDescriptor.new proto.name proto.number

/-- Reads an enum descriptor from a parsed Protobuf descriptor. -/
def EnumDescriptor.from_proto (path : String) (proto : EnumDescriptorProto) :
    EnumDescriptor :=
  let enum_name := path ++ "." ++ proto.name
  proto.value.foldl (fun ed vp => ed.add_value (EnumValueDescriptor.from_proto vp))
    (EnumDescriptor.new enum_name)

/-- Converts a proto field label into a native field label. -/
def FieldLabel.from_proto : ProtoLabel → FieldLabel
  | .LABEL_OPTIONAL => .Optional
  | .LABEL_REQUIRED => .Required
  | .LABEL_REPEATED => .Repeated

/-- Whether the label is repeated. -/
def FieldLabel.is_repeated (l : FieldLabel) : Bool :=
  decide (l = .Repeated)

/-- Abbreviation for the builtin string type, used in signatures declared
inside a namespace whose constructors shadow the name String. -/
abbrev Str : Type := String

/-- Converts a proto field type into a native field type. -/
def InternalFieldType.from_proto (proto : ProtoType) (type_name : Str) :
    InternalFieldType :=
  match proto with
  | .TYPE_DOUBLE => .Double
  | .TYPE_FLOAT => .Float
  | .TYPE_INT64 => .Int64
  | .TYPE_UINT64 => .UInt64
  | .TYPE_INT32 => .Int32
  | .TYPE_FIXED64 => .Fixed64
  | .TYPE_FIXED32 => .Fixed32
  | .TYPE_BOOL => .Bool
  | .TYPE_STRING => .String
  | .TYPE_GROUP => .Group
  | .TYPE_MESSAGE => .UnresolvedMessage type_name
  | .TYPE_BYTES => .Bytes
  | .TYPE_UINT32 => .UInt32
  | .TYPE_ENUM => .UnresolvedEnum type_name
  | .TYPE_SFIXED32 => .SFixed32
  | .TYPE_SFIXED64 => .SFixed64
  | .TYPE_SINT32 => .SInt32
  | .TYPE_SINT64 => .SInt64

/-- Resolves an internal field type to an externally visible field type.
For already resolved ids the source indexes the registry sequences
directly, which panics out of bounds; that is the none outcome. -/
def InternalFieldType.resolve (t : InternalFieldType) (descriptors : Descriptors) :
    Option FieldType :=
  match t with
  | .UnresolvedMessage n =>
    match descriptors.message_by_name n with
    | some m => some (.Message m)
    | none => some (.UnresolvedMessage n)
  | .UnresolvedEnum n =>
    match descriptors.enum_by_name n with
    | some e => some (.Enum e)
    | none => some (.UnresolvedEnum n)
  | .Double => some .Double
  | .Float => some .Float
  | .Int64 => some .Int64
  | .UInt64 => some .UInt64
  | .Int32 => some .Int32
  | .Fixed64 => some .Fixed64
  | .Fixed32 => some .Fixed32
  | .Bool => some .Bool
  | .String => some .String
  | .Group => some .Group
  | .Message m => (descriptors.messages.get? m).map FieldType.Message
  | .Bytes => some .Bytes
  | .UInt32 => some .UInt32
  | .Enum e => (descriptors.enums.get? e).map FieldType.Enum
  | .SFixed32 => some .SFixed32
  | .SFixed64 => some .SFixed64
  | .SInt32 => some .SInt32
  | .SInt64 => some .SInt64

/-- Creates a new field descriptor. -/
def FieldDescriptor.new (name : String) (number : Int) (field_label : FieldLabel)
    (field_type : InternalFieldType) (default_value : Option Value) (optional : Bool) :
    FieldDescriptor :=
  { name := name, number := number, field_label := field_label,
    field_type := field_type, default_value := default_value, optional := optional }

/-- Whether the field is repeated. -/
def FieldDescriptor.is_repeated (f : FieldDescriptor) : Bool :=
  decide (f.field_label = .Repeated)

/-- The type of the field, resolved against a registry (the field_type
accessor taking the registry in the source). -/
def FieldDescriptor.fieldTypeIn (f : FieldDescriptor) (descriptors : Descriptors) :
    Option FieldType :=
  f.field_type.resolve descriptors

/-- Whether the field is optional. -/
def FieldDescriptor.is_optional (f : FieldDescriptor) : Bool :=
  f.optional

/-- Reads a field descriptor from a parsed Protobuf descriptor.  When the
proto carries a default value whose parse panics (the Group arm), the
panic propagates; otherwise a parse error is swallowed with ok() and the
default is left absent. -/
def FieldDescriptor.from_proto (flp : FloatParsers) (proto : FieldDescriptorProto) :
    Option FieldDescriptor :=
  let name := proto.name
  let number := proto.number
  let field_label := FieldLabel.from_proto proto.label
  let field_type := InternalFieldType.from_proto proto.type_ proto.type_name
  let optional := proto.proto3_optional || decide (field_label = FieldLabel.Optional)
  match proto.has_default_value with
  | true =>
    match parse_default_value flp proto.default_value field_type with
    | .ok v => some (FieldDescriptor.new name number field_label field_type (some v) optional)
    | .err _ => some (FieldDescriptor.new name number field_label field_type none optional)
    | .unimplemented => none
  | false => some (FieldDescriptor.new name number field_label field_type none optional)

/-- Reads a message descriptor from a parsed Protobuf descriptor. -/
def MessageDescriptor.from_proto (flp : FloatParsers) (path : String)
    (proto : DescriptorProto) : Option MessageDescriptor :=
  let name := path ++ "." ++ proto.name
  proto.field.foldlM
    (fun md fproto => (FieldDescriptor.from_proto flp fproto).map md.add_field)
    (MessageDescriptor.new name)

/-- Resolves all internal descriptor type references, making them cheaper
to follow.  The name maps are read but never written during the pass, so
it is a pure map over every field of every message; the warning emitted
for a missing target is observability only and is not modelled. -/
def resolveInternal (mmap emap : List (String × Nat)) :
    InternalFieldType → InternalFieldType
  | .UnresolvedMessage name =>
    match lhmGet mmap name with
    | some res => .Message res
    | none => .UnresolvedMessage name
  | .UnresolvedEnum name =>
    match lhmGet emap name with
    | some res => .Enum res
    | none => .UnresolvedEnum name
  | t => t

/-- The resolution pass of the registry. -/
def Descriptors.resolve_refs (d : Descriptors) : Descriptors :=
  { d with
    messages := d.messages.map fun m =>
      { m with
        fields := m.fields.map fun f =>
          { f with
            field_type := resolveInternal d.messages_by_name d.enums_by_name
              f.field_type } } }

theorem DescriptorProto.sizeOf_nested (mp : DescriptorProto) :
    sizeOf mp.nested_type < sizeOf mp := by
  cases mp with
  | mk n f l e =>
    simp [DescriptorProto.nested_type]
    omega

mutual

/-- Adds a message and all nested types within that message from the
specified protocol buffer descriptor.  The none outcome propagates a panic
raised while parsing a field default (the Group arm). -/
def Descriptors.add_message_proto (flp : FloatParsers) (d : Descriptors) (path : String)
    (message_proto : DescriptorProto) : Option Descriptors :=
  match MessageDescriptor.from_proto flp path message_proto with
  | none => none
  | some message_descriptor =>
    match Descriptors.addMessageProtoList flp d message_descriptor.name
        message_proto.nested_type with
    | none => none
    | some d1 =>
      let d2 := message_proto.enum_type.foldl
        (fun dd ep => dd.add_enum (EnumDescriptor.from_proto message_descriptor.name ep)) d1
      some (d2.add_message message_descriptor)
termination_by sizeOf message_proto
decreasing_by cases message_proto with
  | mk n f l e => simp [DescriptorProto.nested_type]; omega

/-- Helper for the loop over nested message descriptors. -/
def Descriptors.addMessageProtoList (flp : FloatParsers) (d : Descriptors) (path : String)
    (l : List DescriptorProto) : Option Descriptors :=
  match l with
  | [] => some d
  | mp :: rest =>
    match Descriptors.add_message_proto flp d path mp with
    | none => none
    | some d1 => Descriptors.addMessageProtoList flp d1 path rest
termination_by sizeOf l
decreasing_by all_goals (simp only [List.cons.sizeOf_spec]; omega)

end

/-- Adds all types defined in the specified protocol buffer file descriptor
to this registry. -/
def Descriptors.add_file_proto (flp : FloatParsers) (d : Descriptors)
    (file_proto : FileDescriptorProto) : Option Descriptors :=
  let path :=
    match file_proto.package with
    | some p => "." ++ p
    | none => ""
  match Descriptors.addMessageProtoList flp d path file_proto.message_type with
  | none => none
  | some d1 =>
    some (file_proto.enum_type.foldl
      (fun dd ep => dd.add_enum (EnumDescriptor.from_proto path ep)) d1)

/-- Adds all types defined in the specified protocol buffer file descriptor
set to this registry. -/
def Descriptors.add_file_set_proto (flp : FloatParsers) (d : Descriptors)
    (file_set_proto : FileDescriptorSet) : Option Descriptors :=
  file_set_proto.file.foldlM (fun dd fp => Descriptors.add_file_proto flp dd fp) d

/-- Builds a descriptor set from the specified protocol buffer file
descriptor set. -/
def Descriptors.from_proto (flp : FloatParsers) (file_set_proto : FileDescriptorSet) :
    Option Descriptors :=
  Descriptors.add_file_set_proto flp Descriptors.new file_set_proto

/-- A message built by a sequence of add_field calls. -/
def addFields (m : MessageDescriptor) (fs : List FieldDescriptor) : MessageDescriptor :=
  fs.foldl MessageDescriptor.add_field m

/-- An enum built by a sequence of add_value calls. -/
def addValues (e : EnumDescriptor) (vs : List EnumValueDescriptor) : EnumDescriptor :=
  vs.foldl EnumDescriptor.add_value e

/-- Field types a caller of the module can construct: the resolved
Message/Enum variants carry ids that are private to the module (the Rust
MessageId/EnumId constructors are not public), so no caller-built field
carries one. -/
def noHandle : InternalFieldType → Bool
  | .Message _ => false
  | .Enum _ => false
  | _ => true

/-- Handles stored in a field type index within the given sequence
lengths. -/
def handlesLt (nm ne : Nat) : InternalFieldType → Prop
  | .Message i => i < nm
  | .Enum i => i < ne
  | _ => True

theorem handlesLt_mono {nm ne nm' ne' : Nat} {t : InternalFieldType}
    (h : handlesLt nm ne t) (hm : nm ≤ nm') (he : ne ≤ ne') : handlesLt nm' ne' t := by
  cases t <;> simp [handlesLt] at h ⊢ <;> omega

theorem handlesLt_of_noHandle {nm ne : Nat} {t : InternalFieldType}
    (h : noHandle t = true) : handlesLt nm ne t := by
  cases t <;> simp [noHandle] at h <;> simp [handlesLt]

/-- The index invariant of one message descriptor: both field indices
correspond to the field sequence. -/
structure MsgInv (m : MessageDescriptor) : Prop where
  byName : IndexInv FieldDescriptor.name m.fields m.fields_by_name
  byNumber : IndexInv FieldDescriptor.number m.fields m.fields_by_number

/-- The index invariant of one enum descriptor. -/
structure EnumInv (e : EnumDescriptor) : Prop where
  byName : IndexInv EnumValueDescriptor.name e.values e.values_by_name
  byNumber : IndexInv EnumValueDescriptor.number e.values e.values_by_number

/-- The full registry invariant: every index corresponds to its sequence
and every resolved handle is in bounds. -/
structure RegInv (d : Descriptors) : Prop where
  msgIdx : IndexInv MessageDescriptor.name d.messages d.messages_by_name
  enumIdx : IndexInv EnumDescriptor.name d.enums d.enums_by_name
  msgs : ∀ m ∈ d.messages, MsgInv m
  enums : ∀ e ∈ d.enums, EnumInv e
  handles : ∀ m ∈ d.messages, ∀ f ∈ m.fields,
    handlesLt d.messages.length d.enums.length f.field_type

theorem msgInv_new (s : String) : MsgInv (MessageDescriptor.new s) :=
  ⟨IndexInv.nil _, IndexInv.nil _⟩

theorem MsgInv.add_field {m : MessageDescriptor} (inv : MsgInv m) (f : FieldDescriptor) :
    MsgInv (m.add_field f) :=
  ⟨inv.byName.add f, inv.byNumber.add f⟩

theorem MsgInv.addFields {m : MessageDescriptor} (inv : MsgInv m)
    (fs : List FieldDescriptor) : MsgInv (addFields m fs) := by
  induction fs generalizing m with
  | nil => exact inv
  | cons f t ih => exact ih (inv.add_field f)

theorem enumInv_new (s : String) : EnumInv (EnumDescriptor.new s) :=
  ⟨IndexInv.nil _, IndexInv.nil _⟩

theorem EnumInv.add_value {e : EnumDescriptor} (inv : EnumInv e)
    (v : EnumValueDescriptor) : EnumInv (e.add_value v) :=
  ⟨inv.byName.add v, inv.byNumber.add v⟩

theorem EnumInv.addValues {e : EnumDescriptor} (inv : EnumInv e)
    (vs : List EnumValueDescriptor) : EnumInv (addValues e vs) := by
  induction vs generalizing e with
  | nil => exact inv
  | cons v t ih => exact ih (inv.add_value v)

theorem addFields_fields (m : MessageDescriptor) (fs : List FieldDescriptor) :
    (addFields m fs).fields = m.fields ++ fs := by
  induction fs generalizing m with
  | nil => simp [addFields]
  | cons f t ih =>
    have : addFields m (f :: t) = addFields (m.add_field f) t := rfl
    rw [this, ih]
    simp [MessageDescriptor.add_field, store]

theorem addFields_name (m : MessageDescriptor) (fs : List FieldDescriptor) :
    (addFields m fs).name = m.name := by
  induction fs generalizing m with
  | nil => rfl
  | cons f t ih =>
    have : addFields m (f :: t) = addFields (m.add_field f) t := rfl
    rw [this, ih]
    rfl

theorem addValues_values (e : EnumDescriptor) (vs : List EnumValueDescriptor) :
    (addValues e vs).values = e.values ++ vs := by
  induction vs generalizing e with
  | nil => simp [addValues]
  | cons v t ih =>
    have : addValues e (v :: t) = addValues (e.add_value v) t := rfl
    rw [this, ih]
    simp [EnumDescriptor.add_value, store]

theorem addValues_name (e : EnumDescriptor) (vs : List EnumValueDescriptor) :
    (addValues e vs).name = e.name := by
  induction vs generalizing e with
  | nil => rfl
  | cons v t ih =>
    have : addValues e (v :: t) = addValues (e.add_value v) t := rfl
    rw [this, ih]
    rfl

/-- A message descriptor reachable through the public Rust API: built from
new by a sequence of add_field calls whose field types a caller can
construct. -/
def MsgSafe (m : MessageDescriptor) : Prop :=
  ∃ (s : String) (fs : List FieldDescriptor),
    (∀ f ∈ fs, noHandle f.field_type = true) ∧ m = addFields (MessageDescriptor.new s) fs

/-- An enum descriptor reachable through the public Rust API. -/
def EnumSafe (e : EnumDescriptor) : Prop :=
  ∃ (s : String) (vs : List EnumValueDescriptor), e = addValues (EnumDescriptor.new s) vs

theorem MsgSafe.msgInv {m : MessageDescriptor} (h : MsgSafe m) : MsgInv m := by
  rcases h with ⟨s, fs, _, rfl⟩
  exact (msgInv_new s).addFields fs

theorem MsgSafe.noHandles {m : MessageDescriptor} (h : MsgSafe m) :
    ∀ f ∈ m.fields, noHandle f.field_type = true := by
  rcases h with ⟨s, fs, hfs, rfl⟩
  rw [addFields_fields]
  intro f hf
  rcases List.mem_append.mp hf with hl | hr
  · exact absurd hl (by simp [MessageDescriptor.new])
  · exact hfs f hr

theorem EnumSafe.enumInv {e : EnumDescriptor} (h : EnumSafe e) : EnumInv e := by
  rcases h with ⟨s, vs, rfl⟩
  exact (enumInv_new s).addValues vs

theorem regInv_new : RegInv Descriptors.new := by
  refine ⟨IndexInv.nil _, IndexInv.nil _, ?_, ?_, ?_⟩
  · intro m hm
    exact absurd hm (by simp [Descriptors.new])
  · intro e he
    exact absurd he (by simp [Descriptors.new])
  · intro m hm
    exact absurd hm (by simp [Descriptors.new])

theorem RegInv.add_message {d : Descriptors} (inv : RegInv d) {m : MessageDescriptor}
    (hm : MsgSafe m) : RegInv (d.add_message m) := by
  refine ⟨inv.msgIdx.add m, inv.enumIdx, ?_, inv.enums, ?_⟩
  · intro x hx
    rcases List.mem_append.mp hx with h | h
    · exact inv.msgs x h
    · rw [List.mem_singleton] at h
      subst h
      exact hm.msgInv
  · intro x hx f hf
    have hlen : d.messages.length ≤ (d.add_message m).messages.length := by
      simp [Descriptors.add_message, store]
    rcases List.mem_append.mp hx with h | h
    · exact handlesLt_mono (inv.handles x h f hf) hlen (Nat.le_refl _)
    · rw [List.mem_singleton] at h
      subst h
      exact handlesLt_of_noHandle (hm.noHandles f hf)

theorem RegInv.add_enum {d : Descriptors} (inv : RegInv d) {e : EnumDescriptor}
    (he : EnumSafe e) : RegInv (d.add_enum e) := by
  refine ⟨inv.msgIdx, inv.enumIdx.add e, inv.msgs, ?_, ?_⟩
  · intro x hx
    rcases List.mem_append.mp hx with h | h
    · exact inv.enums x h
    · rw [List.mem_singleton] at h
      subst h
      exact he.enumInv
  · intro x hx f hf
    have hlen : d.enums.length ≤ (d.add_enum e).enums.length := by
      simp [Descriptors.add_enum, store]
    exact handlesLt_mono (inv.handles x hx f hf) (Nat.le_refl _) hlen

theorem resolveInternal_handlesLt {d : Descriptors} (inv : RegInv d)
    (t : InternalFieldType) (h : handlesLt d.messages.length d.enums.length t) :
    handlesLt d.messages.length d.enums.length
      (resolveInternal d.messages_by_name d.enums_by_name t) := by
  cases t
  case UnresolvedMessage n =>
    simp only [resolveInternal]
    cases hg : lhmGet d.messages_by_name n with
    | some id =>
      rcases inv.msgIdx.lookup_bound hg with ⟨hid, _⟩
      simpa [handlesLt] using hid
    | none => trivial
  case UnresolvedEnum n =>
    simp only [resolveInternal]
    cases hg : lhmGet d.enums_by_name n with
    | some id =>
      rcases inv.enumIdx.lookup_bound hg with ⟨hid, _⟩
      simpa [handlesLt] using hid
    | none => trivial
  all_goals exact h

theorem RegInv.resolve_refs {d : Descriptors} (inv : RegInv d) :
    RegInv d.resolve_refs := by
  refine ⟨?_, inv.enumIdx, ?_, inv.enums, ?_⟩
  · exact inv.msgIdx.map_items _ (fun m => rfl)
  · intro x hx
    rcases List.mem_map.mp hx with ⟨m0, hm0, rfl⟩
    have minv := inv.msgs m0 hm0
    exact ⟨minv.byName.map_items _ (fun f => rfl),
      minv.byNumber.map_items _ (fun f => rfl)⟩
  · intro x hx f hf
    rcases List.mem_map.mp hx with ⟨m0, hm0, rfl⟩
    rcases List.mem_map.mp hf with ⟨f0, hf0, rfl⟩
    have h := resolveInternal_handlesLt inv f0.field_type (inv.handles m0 hm0 f0 hf0)
    simpa [Descriptors.resolve_refs] using h

/-- Any interleaving of the two primitive registry mutations, starting from
an arbitrary registry. -/
inductive Steps : Descriptors → Descriptors → Prop where
  | refl (d : Descriptors) : Steps d d
  | add_message {d d' : Descriptors} {m : MessageDescriptor} :
      Steps d d' → MsgSafe m → Steps d (d'.add_message m)
  | add_enum {d d' : Descriptors} {e : EnumDescriptor} :
      Steps d d' → EnumSafe e → Steps d (d'.add_enum e)

theorem Steps.trans {a b c : Descriptors} (h1 : Steps a b) (h2 : Steps b c) :
    Steps a c := by
  induction h2 with
  | refl => exact h1
  | add_message hs hm ih => exact Steps.add_message ih hm
  | add_enum hs he ih => exact Steps.add_enum ih he

theorem steps_regInv {a b : Descriptors} (inv : RegInv a) (h : Steps a b) : RegInv b := by
  induction h with
  | refl => exact inv
  | add_message hs hm ih => exact ih.add_message hm
  | add_enum hs he ih => exact ih.add_enum he

theorem FieldDescriptor.from_proto_some {flp : FloatParsers}
    {proto : FieldDescriptorProto} {fd : FieldDescriptor}
    (h : FieldDescriptor.from_proto flp proto = some fd) :
    fd.name = proto.name ∧ fd.number = proto.number ∧
    fd.field_label = FieldLabel.from_proto proto.label ∧
    fd.field_type = InternalFieldType.from_proto proto.type_ proto.type_name ∧
    fd.optional = (proto.proto3_optional ||
      decide (FieldLabel.from_proto proto.label = FieldLabel.Optional)) := by
  unfold FieldDescriptor.from_proto at h
  dsimp only at h
  split at h
  · split at h
    · cases h; exact ⟨rfl, rfl, rfl, rfl, rfl⟩
    · cases h; exact ⟨rfl, rfl, rfl, rfl, rfl⟩
    · exact absurd h (by simp)
  · cases h; exact ⟨rfl, rfl, rfl, rfl, rfl⟩

theorem noHandle_from_proto (t : ProtoType) (n : String) :
    noHandle (InternalFieldType.from_proto t n) = true := by
  cases t <;> rfl

theorem from_proto_fields_aux (flp : FloatParsers) (protos : List FieldDescriptorProto)
    (acc md : MessageDescriptor)
    (h : protos.foldlM
      (fun md fproto => (FieldDescriptor.from_proto flp fproto).map md.add_field) acc =
      some md) :
    ∃ fs, (∀ f ∈ fs, noHandle f.field_type = true) ∧ md = addFields acc fs := by
  induction protos generalizing acc with
  | nil =>
    simp only [List.foldlM_nil, pure, Option.some.injEq] at h
    exact ⟨[], by simp, h.symm⟩
  | cons p ps ih =>
    rw [List.foldlM_cons] at h
    cases hfd : FieldDescriptor.from_proto flp p with
    | none => rw [hfd] at h; exact absurd h (by simp)
    | some fd =>
      rw [hfd] at h
      simp only [Option.map_some', Option.some_bind] at h
      rcases ih (acc.add_field fd) h with ⟨fs, hfs, heq⟩
      refine ⟨fd :: fs, ?_, heq⟩
      intro f hf
      rcases List.mem_cons.mp hf with hfeq | hft
      · subst hfeq
        rw [(FieldDescriptor.from_proto_some hfd).2.2.2.1]
        exact noHandle_from_proto _ _
      · exact hfs f hft

theorem msg_from_proto_shape {flp : FloatParsers} {path : String}
    {mp : DescriptorProto} {md : MessageDescriptor}
    (h : MessageDescriptor.from_proto flp path mp = some md) :
    ∃ fs, (∀ f ∈ fs, noHandle f.field_type = true) ∧
      md = addFields (MessageDescriptor.new (path ++ "." ++ mp.name)) fs := by
  unfold MessageDescriptor.from_proto at h
  exact from_proto_fields_aux flp mp.field _ md h

theorem MessageDescriptor.from_proto_msgSafe {flp : FloatParsers} {path : String}
    {mp : DescriptorProto} {md : MessageDescriptor}
    (h : MessageDescriptor.from_proto flp path mp = some md) : MsgSafe md := by
  rcases msg_from_proto_shape h with ⟨fs, hfs, rfl⟩
  exact ⟨path ++ "." ++ mp.name, fs, hfs, rfl⟩

theorem msg_from_proto_name {flp : FloatParsers} {path : String}
    {mp : DescriptorProto} {md : MessageDescriptor}
    (h : MessageDescriptor.from_proto flp path mp = some md) :
    md.name = path ++ "." ++ mp.name := by
  rcases msg_from_proto_shape h with ⟨fs, hfs, rfl⟩
  rw [addFields_name]
  rfl

theorem enum_from_proto_shape (path : String) (ep : EnumDescriptorProto) :
    EnumDescriptor.from_proto path ep =
      addValues (EnumDescriptor.new (path ++ "." ++ ep.name))
        (ep.value.map EnumValueDescriptor.from_proto) := by
  unfold EnumDescriptor.from_proto addValues
  rw [List.foldl_map]

theorem EnumDescriptor.from_proto_enumSafe (path : String) (ep : EnumDescriptorProto) :
    EnumSafe (EnumDescriptor.from_proto path ep) :=
  ⟨path ++ "." ++ ep.name, ep.value.map EnumValueDescriptor.from_proto,
    enum_from_proto_shape path ep⟩

theorem enum_from_proto_name (path : String) (ep : EnumDescriptorProto) :
    (EnumDescriptor.from_proto path ep).name = path ++ "." ++ ep.name := by
  rw [enum_from_proto_shape, addValues_name]
  rfl

theorem steps_foldl_add_enum (path : String) (eps : List EnumDescriptorProto)
    (d : Descriptors) :
    Steps d (eps.foldl (fun dd ep => dd.add_enum (EnumDescriptor.from_proto path ep)) d) := by
  induction eps generalizing d with
  | nil => exact Steps.refl d
  | cons ep t ih =>
    rw [List.foldl_cons]
    exact Steps.trans
      (Steps.add_enum (Steps.refl d) (EnumDescriptor.from_proto_enumSafe path ep))
      (ih _)

mutual

theorem steps_add_message_proto (flp : FloatParsers) (d : Descriptors) (path : String)
    (mp : DescriptorProto) (d' : Descriptors)
    (h : Descriptors.add_message_proto flp d path mp = some d') : Steps d d' := by
  rw [Descriptors.add_message_proto] at h
  cases hmd : MessageDescriptor.from_proto flp path mp with
  | none => simp [hmd] at h
  | some md =>
    rw [hmd] at h
    dsimp only at h
    cases hl : Descriptors.addMessageProtoList flp d md.name mp.nested_type with
    | none => rw [hl] at h; exact absurd h (by simp)
    | some d1 =>
      rw [hl] at h
      dsimp only at h
      rw [Option.some.injEq] at h
      have s1 : Steps d d1 := steps_addMessageProtoList flp d md.name mp.nested_type d1 hl
      have s2 : Steps d1 (mp.enum_type.foldl
        (fun dd ep => dd.add_enum (EnumDescriptor.from_proto md.name ep)) d1) :=
        steps_foldl_add_enum md.name mp.enum_type d1
      rw [← h]
      exact Steps.trans s1 (Steps.trans s2
        (Steps.add_message (Steps.refl _) (MessageDescriptor.from_proto_msgSafe hmd)))
termination_by sizeOf mp
decreasing_by exact DescriptorProto.sizeOf_nested mp

theorem steps_addMessageProtoList (flp : FloatParsers) (d : Descriptors) (path : String)
    (l : List DescriptorProto) (d' : Descriptors)
    (h : Descriptors.addMessageProtoList flp d path l = some d') : Steps d d' := by
  rw [Descriptors.addMessageProtoList.eq_def] at h
  cases l with
  | nil =>
    dsimp only at h
    rw [Option.some.injEq] at h
    rw [← h]
    exact Steps.refl d
  | cons mp rest =>
    dsimp only at h
    cases hm : Descriptors.add_message_proto flp d path mp with
    | none => rw [hm] at h; exact absurd h (by simp)
    | some d1 =>
      rw [hm] at h
      exact Steps.trans (steps_add_message_proto flp d path mp d1 hm)
        (steps_addMessageProtoList flp d1 path rest d' h)
termination_by sizeOf l
decreasing_by all_goals (subst_vars; simp only [List.cons.sizeOf_spec]; omega)

end

theorem steps_add_file_proto (flp : FloatParsers) (d : Descriptors)
    (fp : FileDescriptorProto) (d' : Descriptors)
    (h : Descriptors.add_file_proto flp d fp = some d') : Steps d d' := by
  unfold Descriptors.add_file_proto at h
  dsimp only at h
  cases hl : Descriptors.addMessageProtoList flp d
      (match fp.package with | some p => "." ++ p | none => "") fp.message_type with
  | none => rw [hl] at h; exact absurd h (by simp)
  | some d1 =>
    rw [hl] at h
    dsimp only at h
    rw [Option.some.injEq] at h
    rw [← h]
    exact Steps.trans (steps_addMessageProtoList flp d _ fp.message_type d1 hl)
      (steps_foldl_add_enum _ fp.enum_type d1)

theorem steps_foldlM_files (flp : FloatParsers) (files : List FileDescriptorProto)
    (d d' : Descriptors)
    (h : files.foldlM (fun dd fp => Descriptors.add_file_proto flp dd fp) d = some d') :
    Steps d d' := by
  induction files generalizing d with
  | nil =>
    simp only [List.foldlM_nil, pure, Option.some.injEq] at h
    rw [← h]
    exact Steps.refl d
  | cons fp rest ih =>
    rw [List.foldlM_cons] at h
    cases hfp : Descriptors.add_file_proto flp d fp with
    | none => rw [hfp] at h; exact absurd h (by simp)
    | some d1 =>
      rw [hfp] at h
      exact Steps.trans (steps_add_file_proto flp d fp d1 hfp) (ih d1 h)

theorem steps_add_file_set_proto (flp : FloatParsers) (d : Descriptors)
    (s : FileDescriptorSet) (d' : Descriptors)
    (h : Descriptors.add_file_set_proto flp d s = some d') : Steps d d' := by
  unfold Descriptors.add_file_set_proto at h
  exact steps_foldlM_files flp s.file d d' h

/-- The registries reachable through the public construction API of the
source: new, from_proto, add_message, add_enum, add_file_proto,
add_file_set_proto, add_message_proto and resolve_refs, in any order.  The
MsgSafe/EnumSafe side conditions record that Rust callers can only pass
descriptors they can build, and resolved ids are not constructible outside
the module. -/
inductive Built : Descriptors → Prop where
  | new : Built Descriptors.new
  | add_message {d : Descriptors} {m : MessageDescriptor} :
      Built d → MsgSafe m → Built (d.add_message m)
  | add_enum {d : Descriptors} {e : EnumDescriptor} :
      Built d → EnumSafe e → Built (d.add_enum e)
  | add_message_proto {flp : FloatParsers} {d : Descriptors} {path : String}
      {mp : DescriptorProto} {d' : Descriptors} :
      Built d → Descriptors.add_message_proto flp d path mp = some d' → Built d'
  | add_file_proto {flp : FloatParsers} {d : Descriptors} {fp : FileDescriptorProto}
      {d' : Descriptors} :
      Built d → Descriptors.add_file_proto flp d fp = some d' → Built d'
  | add_file_set_proto {flp : FloatParsers} {d : Descriptors} {s : FileDescriptorSet}
      {d' : Descriptors} :
      Built d → Descriptors.add_file_set_proto flp d s = some d' → Built d'
  | from_proto {flp : FloatParsers} {s : FileDescriptorSet} {d' : Descriptors} :
      Descriptors.from_proto flp s = some d' → Built d'
  | resolve_refs {d : Descriptors} : Built d → Built d.resolve_refs

/-- Every registry reachable through the public API satisfies the full
registry invariant. -/
theorem Built.toRegInv {d : Descriptors} (h : Built d) : RegInv d := by
  induction h with
  | new => exact regInv_new
  | add_message hb hm ih => exact ih.add_message hm
  | add_enum hb he ih => exact ih.add_enum he
  | add_message_proto hb hstep ih => exact steps_regInv ih (steps_add_message_proto _ _ _ _ _ hstep)
  | add_file_proto hb hstep ih => exact steps_regInv ih (steps_add_file_proto _ _ _ _ hstep)
  | add_file_set_proto hb hstep ih => exact steps_regInv ih (steps_add_file_set_proto _ _ _ _ hstep)
  | from_proto hstep => exact steps_regInv regInv_new (steps_add_file_set_proto _ _ _ _ hstep)
  | resolve_refs hb ih => exact ih.resolve_refs

mutual

/-- The naming scheme of the spec for the message types contributed by one
message descriptor proto imported at a given parent path, in registration
order: first the keys of all nested types, each under the enclosing
message's fully-qualified name plus "." plus its local name, and last the
message itself under parent path plus "." plus its local name. -/
def specMessageKeys (parent_path : String) (mp : DescriptorProto) : List String :=
  specMessageKeysList (parent_path ++ "." ++ mp.name) mp.nested_type ++
    [parent_path ++ "." ++ mp.name]
termination_by sizeOf mp
decreasing_by exact DescriptorProto.sizeOf_nested mp

/-- Keys contributed by a list of sibling message descriptor protos. -/
def specMessageKeysList (parent_path : String) (l : List DescriptorProto) : List String :=
  match l with
  | [] => []
  | mp :: rest => specMessageKeys parent_path mp ++ specMessageKeysList parent_path rest
termination_by sizeOf l
decreasing_by all_goals (simp only [List.cons.sizeOf_spec]; omega)

end

mutual

/-- The naming scheme of the spec for the enum types contributed by one
message descriptor proto, in registration order: enums of nested messages
first, then the enums declared directly inside the message, each keyed by
the enclosing message's fully-qualified name plus "." plus the local enum
name. -/
def specEnumKeys (parent_path : String) (mp : DescriptorProto) : List String :=
  specEnumKeysList (parent_path ++ "." ++ mp.name) mp.nested_type ++
    mp.enum_type.map (fun ep => parent_path ++ "." ++ mp.name ++ "." ++ ep.name)
termination_by sizeOf mp
decreasing_by exact DescriptorProto.sizeOf_nested mp

/-- Enum keys contributed by a list of sibling message descriptor protos. -/
def specEnumKeysList (parent_path : String) (l : List DescriptorProto) : List String :=
  match l with
  | [] => []
  | mp :: rest => specEnumKeys parent_path mp ++ specEnumKeysList parent_path rest
termination_by sizeOf l
decreasing_by all_goals (simp only [List.cons.sizeOf_spec]; omega)

end

/-- The package path a file contributes: "." followed by the package when
one is present, the empty prefix otherwise. -/
def filePackagePath (pkg : Option String) : String :=
  match pkg with
  | some p => "." ++ p
  | none => ""

theorem add_message_names (d : Descriptors) (m : MessageDescriptor) :
    (d.add_message m).messages.map MessageDescriptor.name =
      d.messages.map MessageDescriptor.name ++ [m.name] ∧
    (d.add_message m).enums = d.enums := by
  constructor
  · simp [Descriptors.add_message, store]
  · rfl

theorem add_enum_names (d : Descriptors) (e : EnumDescriptor) :
    (d.add_enum e).enums.map EnumDescriptor.name =
      d.enums.map EnumDescriptor.name ++ [e.name] ∧
    (d.add_enum e).messages = d.messages := by
  constructor
  · simp [Descriptors.add_enum, store]
  · rfl

theorem foldl_add_enum_names (path : String) (eps : List EnumDescriptorProto)
    (d : Descriptors) :
    (eps.foldl (fun dd ep => dd.add_enum (EnumDescriptor.from_proto path ep)) d).enums.map
        EnumDescriptor.name =
      d.enums.map EnumDescriptor.name ++ eps.map (fun ep => path ++ "." ++ ep.name) ∧
    (eps.foldl (fun dd ep => dd.add_enum (EnumDescriptor.from_proto path ep)) d).messages =
      d.messages := by
  induction eps generalizing d with
  | nil => exact ⟨by simp, rfl⟩
  | cons ep t ih =>
    rw [List.foldl_cons]
    rcases ih (d.add_enum (EnumDescriptor.from_proto path ep)) with ⟨he, hm⟩
    constructor
    · rw [he, (add_enum_names d (EnumDescriptor.from_proto path ep)).1,
        enum_from_proto_name]
      simp
    · rw [hm]
      rfl

mutual

theorem add_message_proto_names (flp : FloatParsers) (d : Descriptors) (path : String)
    (mp : DescriptorProto) (d' : Descriptors)
    (h : Descriptors.add_message_proto flp d path mp = some d') :
    d'.messages.map MessageDescriptor.name =
      d.messages.map MessageDescriptor.name ++ specMessageKeys path mp ∧
    d'.enums.map EnumDescriptor.name =
      d.enums.map EnumDescriptor.name ++ specEnumKeys path mp := by
  rw [Descriptors.add_message_proto] at h
  cases hmd : MessageDescriptor.from_proto flp path mp with
  | none => simp [hmd] at h
  | some md =>
    rw [hmd] at h
    dsimp only at h
    cases hl : Descriptors.addMessageProtoList flp d md.name mp.nested_type with
    | none => rw [hl] at h; exact absurd h (by simp)
    | some d1 =>
      rw [hl] at h
      dsimp only at h
      rw [Option.some.injEq] at h
      have hname : md.name = path ++ "." ++ mp.name := msg_from_proto_name hmd
      have h1 := addMessageProtoList_names flp d md.name mp.nested_type d1 hl
      have h2 := foldl_add_enum_names md.name mp.enum_type d1
      have h3 := add_message_names
        (mp.enum_type.foldl
          (fun dd ep => dd.add_enum (EnumDescriptor.from_proto md.name ep)) d1) md
      rw [← h]
      constructor
      · rw [h3.1]
        have hmm : (mp.enum_type.foldl
            (fun dd ep => dd.add_enum (EnumDescriptor.from_proto md.name ep)) d1).messages =
            d1.messages := h2.2
        rw [hmm, h1.1, hname]
        rw [specMessageKeys]
        rw [List.append_assoc]
      · rw [show ((mp.enum_type.foldl
            (fun dd ep => dd.add_enum (EnumDescriptor.from_proto md.name ep)) d1).add_message
            md).enums = (mp.enum_type.foldl
            (fun dd ep => dd.add_enum (EnumDescriptor.from_proto md.name ep)) d1).enums
          from rfl]
        rw [h2.1, h1.2, hname]
        rw [specEnumKeys]
        rw [List.append_assoc]
termination_by sizeOf mp
decreasing_by exact DescriptorProto.sizeOf_nested mp

theorem addMessageProtoList_names (flp : FloatParsers) (d : Descriptors) (path : String)
    (l : List DescriptorProto) (d' : Descriptors)
    (h : Descriptors.addMessageProtoList flp d path l = some d') :
    d'.messages.map MessageDescriptor.name =
      d.messages.map MessageDescriptor.name ++ specMessageKeysList path l ∧
    d'.enums.map EnumDescriptor.name =
      d.enums.map EnumDescriptor.name ++ specEnumKeysList path l := by
  rw [Descriptors.addMessageProtoList.eq_def] at h
  cases l with
  | nil =>
    dsimp only at h
    rw [Option.some.injEq] at h
    rw [← h, specMessageKeysList, specEnumKeysList]
    exact ⟨by simp, by simp⟩
  | cons mp rest =>
    dsimp only at h
    cases hm : Descriptors.add_message_proto flp d path mp with
    | none => rw [hm] at h; exact absurd h (by simp)
    | some d1 =>
      rw [hm] at h
      have ha := add_message_proto_names flp d path mp d1 hm
      have hb := addMessageProtoList_names flp d1 path rest d' h
      rw [specMessageKeysList, specEnumKeysList]
      constructor
      · rw [hb.1, ha.1, List.append_assoc]
      · rw [hb.2, ha.2, List.append_assoc]
termination_by sizeOf l
decreasing_by all_goals (subst_vars; simp only [List.cons.sizeOf_spec]; omega)

end

theorem add_file_proto_names (flp : FloatParsers) (d : Descriptors)
    (fp : FileDescriptorProto) (d' : Descriptors)
    (h : Descriptors.add_file_proto flp d fp = some d') :
    d'.messages.map MessageDescriptor.name =
      d.messages.map MessageDescriptor.name ++
        specMessageKeysList (filePackagePath fp.package) fp.message_type ∧
    d'.enums.map EnumDescriptor.name =
      d.enums.map EnumDescriptor.name ++
        specEnumKeysList (filePackagePath fp.package) fp.message_type ++
        fp.enum_type.map (fun ep => filePackagePath fp.package ++ "." ++ ep.name) := by
  unfold Descriptors.add_file_proto at h
  dsimp only at h
  cases hl : Descriptors.addMessageProtoList flp d
      (match fp.package with | some p => "." ++ p | none => "") fp.message_type with
  | none => rw [hl] at h; exact absurd h (by simp)
  | some d1 =>
    rw [hl] at h
    dsimp only at h
    rw [Option.some.injEq] at h
    have hpath : (match fp.package with | some p => "." ++ p | none => "") =
        filePackagePath fp.package := rfl
    rw [hpath] at hl
    have h1 := addMessageProtoList_names flp d (filePackagePath fp.package)
      fp.message_type d1 hl
    have h2 := foldl_add_enum_names (filePackagePath fp.package) fp.enum_type d1
    rw [← h]
    constructor
    · rw [hpath, h2.2, h1.1]
    · rw [hpath, h2.1, h1.2, List.append_assoc]

theorem resolveInternal_idem (mmap emap : List (String × Nat)) (t : InternalFieldType) :
    resolveInternal mmap emap (resolveInternal mmap emap t) =
      resolveInternal mmap emap t := by
  cases t
  case UnresolvedMessage n =>
    cases hg : lhmGet mmap n with
    | some id => simp only [resolveInternal, hg]
    | none => simp only [resolveInternal, hg]
  case UnresolvedEnum n =>
    cases hg : lhmGet emap n with
    | some id => simp only [resolveInternal, hg]
    | none => simp only [resolveInternal, hg]
  all_goals rfl

/-- C4: resolve_refs is idempotent: running the resolution pass twice in a
row leaves the registry in exactly the same state as running it once (in
particular every message name and every field name, number, label, default
and internal type agree after the first and the second call). -/
theorem claim_C4 (d : Descriptors) :
    d.resolve_refs.resolve_refs = d.resolve_refs := by
  unfold Descriptors.resolve_refs
  congr 1
  rw [List.map_map]
  apply List.map_congr_left
  intro m hm
  simp only [Function.comp]
  congr 1
  rw [List.map_map]
  apply List.map_congr_left
  intro f hf
  simp only [Function.comp]
  congr 1
  exact resolveInternal_idem _ _ _

/-- C5: a field descriptor proto carrying a default-value string that fails
to decode against the field's type still yields a valid field descriptor:
the default is absent and name, number, label, type and the optional flag
are taken from the proto exactly as for any other field; the parse error is
never propagated to the caller. -/
theorem claim_C5 (flp : FloatParsers) (proto : FieldDescriptorProto) (e : Error)
    (hdv : proto.has_default_value = true)
    (hfail : parse_default_value flp proto.default_value
      (InternalFieldType.from_proto proto.type_ proto.type_name) = .err e) :
    FieldDescriptor.from_proto flp proto =
      some (FieldDescriptor.new proto.name proto.number
        (FieldLabel.from_proto proto.label)
        (InternalFieldType.from_proto proto.type_ proto.type_name)
        none
        (proto.proto3_optional ||
          decide (FieldLabel.from_proto proto.label = FieldLabel.Optional))) := by
  unfold FieldDescriptor.from_proto
  dsimp only
  rw [hdv]
  dsimp only
  rw [hfail]

def flp0 : FloatParsers :=
  { f64FromStr := fun _ => none, f32FromStr := fun _ => none }

theorem claim_C5_witness :
    FieldDescriptor.from_proto flp0
      { name := "x", number := 1, label := ProtoLabel.LABEL_OPTIONAL,
        type_ := ProtoType.TYPE_INT32, type_name := "",
        has_default_value := true, default_value := "abc",
        proto3_optional := false } =
      some (FieldDescriptor.new "x" 1 FieldLabel.Optional InternalFieldType.Int32 none
        true) := by
  have h := claim_C5 flp0
    { name := "x", number := 1, label := ProtoLabel.LABEL_OPTIONAL,
      type_ := ProtoType.TYPE_INT32, type_name := "",
      has_default_value := true, default_value := "abc",
      proto3_optional := false }
    (Error.BadDefaultValue "abc") rfl (by decide)
  rw [h]
  rfl

/-- The decimal-integer grammar of the amended C7: an optional leading sign
(a minus sign accepted only for the signed types) followed by one or more
decimal digits, denoting the signed value. -/
def specDecimal (signed : Bool) (s : String) : Option Int :=
  match s.data with
  | [] => none
  | c :: rest =>
    if c = '+' then (parseDecDigits rest).map fun n => Int.ofNat n
    else if c = '-' then
      if signed then (parseDecDigits rest).map fun n => -(Int.ofNat n) else none
    else (parseDecDigits (c :: rest)).map fun n => Int.ofNat n

/-- The decimal-integer reading of the original C7: an optionally signed
string of decimal digits, denoting its mathematical value, with no
restriction based on the target type's signedness. -/
def decimalIntegerValue (s : String) : Option Int :=
  match s.data with
  | [] => none
  | c :: rest =>
    if c = '+' then (parseDecDigits rest).map fun n => Int.ofNat n
    else if c = '-' then (parseDecDigits rest).map fun n => -(Int.ofNat n)
    else (parseDecDigits (c :: rest)).map fun n => Int.ofNat n

theorem rustIntFromStr_spec (signed : Bool) (lo hi : Int) (hlo : lo ≤ 0) (hhi : 0 ≤ hi)
    (s : String) :
    rustIntFromStr signed lo hi s =
      (specDecimal signed s).bind fun n => if lo ≤ n ∧ n ≤ hi then some n else none := by
  unfold rustIntFromStr specDecimal
  cases s.data with
  | nil => rfl
  | cons c rest =>
    dsimp only
    by_cases hplus : c = '+'
    · rw [if_pos hplus, if_pos hplus]
      cases parseDecDigits rest with
      | none => rfl
      | some n =>
        simp only [Option.map_some', Option.some_bind]
        have h0 : lo ≤ (n : Int) := le_trans hlo (Int.natCast_nonneg n)
        by_cases hn : (n : Int) ≤ hi
        · rw [if_pos hn, if_pos ⟨h0, hn⟩]
          rfl
        · rw [if_neg hn, if_neg (fun hc => hn hc.2)]
    · rw [if_neg hplus, if_neg hplus]
      by_cases hminus : c = '-'
      · rw [if_pos hminus, if_pos hminus]
        cases signed with
        | false => rfl
        | true =>
          simp only [if_true]
          cases parseDecDigits rest with
          | none => rfl
          | some n =>
            simp only [Option.map_some', Option.some_bind]
            have h0 : -(n : Int) ≤ hi := le_trans (by omega) hhi
            by_cases hn : lo ≤ -(n : Int)
            · rw [if_pos hn, if_pos ⟨hn, h0⟩]
              rfl
            · rw [if_neg hn, if_neg (fun hc => hn hc.1)]
      · rw [if_neg hminus, if_neg hminus]
        cases parseDecDigits (c :: rest) with
        | none => rfl
        | some n =>
          simp only [Option.map_some', Option.some_bind]
          have h0 : lo ≤ (n : Int) := le_trans hlo (Int.natCast_nonneg n)
          by_cases hn : (n : Int) ≤ hi
          · rw [if_pos hn, if_pos ⟨h0, hn⟩]
            rfl
          · rw [if_neg hn, if_neg (fun hc => hn hc.2)]

/-- The shape shared by the eight integer arms of parse_default_value. -/
def intOutcome (f : String → Option Int) (mk : Int → Value) (s : String) : ParseOutcome :=
  match f s with
  | some n => .ok (mk n)
  | none => .err (.BadDefaultValue s)

theorem intOutcome_spec (signed : Bool) (lo hi : Int) (hlo : lo ≤ 0) (hhi : 0 ≤ hi)
    (mk : Int → Value) (s : String) :
    match specDecimal signed s with
    | some n =>
      if lo ≤ n ∧ n ≤ hi
      then intOutcome (rustIntFromStr signed lo hi) mk s = .ok (mk n)
      else intOutcome (rustIntFromStr signed lo hi) mk s = .err (.BadDefaultValue s)
    | none => intOutcome (rustIntFromStr signed lo hi) mk s = .err (.BadDefaultValue s) := by
  have hspec := rustIntFromStr_spec signed lo hi hlo hhi s
  cases hsd : specDecimal signed s with
  | none =>
    dsimp only
    unfold intOutcome
    rw [hspec, hsd]
    rfl
  | some n =>
    dsimp only
    by_cases hr : lo ≤ n ∧ n ≤ hi
    · rw [if_pos hr]
      unfold intOutcome
      rw [hspec, hsd]
      simp only [Option.some_bind]
      rw [if_pos hr]
    · rw [if_neg hr]
      unfold intOutcome
      rw [hspec, hsd]
      simp only [Option.some_bind]
      rw [if_neg hr]

/-- Integer parsing parameters of the eight integer-typed arms of
parse_default_value: signedness, the bounds of the target type and the
value constructor the parsed integer is wrapped in. -/
def intTypeParams : InternalFieldType → Option (Bool × Int × Int × (Int → Value))
  | .Int32 => some (true, -(2 ^ 31), 2 ^ 31 - 1, Value.I32)
  | .SFixed32 => some (true, -(2 ^ 31), 2 ^ 31 - 1, Value.I32)
  | .SInt32 => some (true, -(2 ^ 31), 2 ^ 31 - 1, Value.I32)
  | .Int64 => some (true, -(2 ^ 63), 2 ^ 63 - 1, Value.I64)
  | .SFixed64 => some (true, -(2 ^ 63), 2 ^ 63 - 1, Value.I64)
  | .SInt64 => some (true, -(2 ^ 63), 2 ^ 63 - 1, Value.I64)
  | .UInt32 => some (false, 0, 2 ^ 32 - 1, Value.U32)
  | .Fixed32 => some (false, 0, 2 ^ 32 - 1, Value.U32)
  | .UInt64 => some (false, 0, 2 ^ 64 - 1, Value.U64)
  | .Fixed64 => some (false, 0, 2 ^ 64 - 1, Value.U64)
  | _ => none

/-- C7 (amended): for every integer-typed field (Int32/SFixed32/SInt32,
Int64/SFixed64/SInt64, UInt32/Fixed32, UInt64/Fixed64), parse_default_value
succeeds exactly when the default string consists of an optional leading
plus or minus sign (the minus sign accepted only for the signed types)
followed by one or more decimal digits whose signed value lies within the
target type's range, returning that value in the corresponding scalar
constructor; otherwise it fails with BadDefaultValue carrying the offending
string.  In particular every out-of-range integer string fails. -/
theorem claim_C7_amended (flp : FloatParsers) (s : String) (ty : InternalFieldType)
    (signed : Bool) (lo hi : Int) (mk : Int → Value)
    (h : intTypeParams ty = some (signed, lo, hi, mk)) :
    match specDecimal signed s with
    | some n =>
      if lo ≤ n ∧ n ≤ hi
      then parse_default_value flp s ty = .ok (mk n)
      else parse_default_value flp s ty = .err (.BadDefaultValue s)
    | none => parse_default_value flp s ty = .err (.BadDefaultValue s) := by
  cases ty <;> simp only [intTypeParams, Option.some.injEq, reduceCtorEq] at h
  case Int32 =>
    obtain ⟨rfl, rfl, rfl, rfl⟩ := h
    exact intOutcome_spec true (-(2 ^ 31)) (2 ^ 31 - 1) (by norm_num) (by norm_num)
      Value.I32 s
  case SFixed32 =>
    obtain ⟨rfl, rfl, rfl, rfl⟩ := h
    exact intOutcome_spec true (-(2 ^ 31)) (2 ^ 31 - 1) (by norm_num) (by norm_num)
      Value.I32 s
  case SInt32 =>
    obtain ⟨rfl, rfl, rfl, rfl⟩ := h
    exact intOutcome_spec true (-(2 ^ 31)) (2 ^ 31 - 1) (by norm_num) (by norm_num)
      Value.I32 s
  case Int64 =>
    obtain ⟨rfl, rfl, rfl, rfl⟩ := h
    exact intOutcome_spec true (-(2 ^ 63)) (2 ^ 63 - 1) (by norm_num) (by norm_num)
      Value.I64 s
  case SFixed64 =>
    obtain ⟨rfl, rfl, rfl, rfl⟩ := h
    exact intOutcome_spec true (-(2 ^ 63)) (2 ^ 63 - 1) (by norm_num) (by norm_num)
      Value.I64 s
  case SInt64 =>
    obtain ⟨rfl, rfl, rfl, rfl⟩ := h
    exact intOutcome_spec true (-(2 ^ 63)) (2 ^ 63 - 1) (by norm_num) (by norm_num)
      Value.I64 s
  case UInt32 =>
    obtain ⟨rfl, rfl, rfl, rfl⟩ := h
    exact intOutcome_spec false 0 (2 ^ 32 - 1) (by norm_num) (by norm_num) Value.U32 s
  case Fixed32 =>
    obtain ⟨rfl, rfl, rfl, rfl⟩ := h
    exact intOutcome_spec false 0 (2 ^ 32 - 1) (by norm_num) (by norm_num) Value.U32 s
  case UInt64 =>
    obtain ⟨rfl, rfl, rfl, rfl⟩ := h
    exact intOutcome_spec false 0 (2 ^ 64 - 1) (by norm_num) (by norm_num) Value.U64 s
  case Fixed64 =>
    obtain ⟨rfl, rfl, rfl, rfl⟩ := h
    exact intOutcome_spec false 0 (2 ^ 64 - 1) (by norm_num) (by norm_num) Value.U64 s

theorem claim_C7_amended_witness :
    parse_default_value flp0 "5" InternalFieldType.Int32 = .ok (.I32 5) := by
  have h := claim_C7_amended flp0 "5" InternalFieldType.Int32 true (-(2 ^ 31))
    (2 ^ 31 - 1) Value.I32 rfl
  rw [show specDecimal true "5" = some 5 from by decide] at h
  dsimp only at h
  rw [if_pos (by constructor <;> decide)] at h
  exact h

/-- C7 (counterexample): the string "-0" is a decimal integer denoting 0,
which lies in the UInt32 range [0, 2^32 - 1], yet parse_default_value
rejects it for UInt32 with BadDefaultValue: unsigned parsing accepts no
minus sign at all. -/
theorem claim_C7_counterexample :
    decimalIntegerValue "-0" = some 0 ∧
    ((0 : Int) ≤ 0 ∧ (0 : Int) ≤ 2 ^ 32 - 1) ∧
    parse_default_value flp0 "-0" InternalFieldType.UInt32 =
      .err (.BadDefaultValue "-0") := by
  refine ⟨by decide, ⟨le_refl 0, by norm_num⟩, by decide⟩

theorem lookup_self_of_nodup {α A : Type} [DecidableEq α] {key : A → α} {items : List A}
    {index : List (α × Nat)} (inv : IndexInv key items index)
    (hn : (items.map key).Nodup) {x : A} (hx : x ∈ items) :
    ∃ i, lhmGet index (key x) = some i ∧ items.get? i = some x := by
  rcases List.mem_iff_get.mp hx with ⟨⟨i, hi⟩, hxi⟩
  have hlast : ∀ j (hj : j < items.length), i < j →
      key (items.get ⟨j, hj⟩) ≠ key (items.get ⟨i, hi⟩) := by
    intro j hj hij hkeq
    have hm1 : (items.map key).get ⟨j, by simpa using hj⟩ = key (items.get ⟨j, hj⟩) := by
      simp [List.get_eq_getElem, List.getElem_map]
    have hm2 : (items.map key).get ⟨i, by simpa using hi⟩ = key (items.get ⟨i, hi⟩) := by
      simp [List.get_eq_getElem, List.getElem_map]
    have heq : (items.map key).get ⟨j, by simpa using hj⟩ =
        (items.map key).get ⟨i, by simpa using hi⟩ := by rw [hm1, hm2, hkeq]
    have := (List.Nodup.get_inj_iff hn).mp heq
    have : j = i := congrArg Fin.val this
    omega
  have hl := inv.lookup_last i hi hlast
  rw [hxi] at hl
  exact ⟨i, hl, by rw [List.get?_eq_get hi, hxi]⟩

theorem addFields_keys_by_name (m : MessageDescriptor) (fs : List FieldDescriptor)
    (hdisj : ∀ f ∈ fs, f.name ∉ m.fields_by_name.map Prod.fst)
    (hn : (fs.map FieldDescriptor.name).Nodup) :
    (addFields m fs).fields_by_name.map Prod.fst =
      m.fields_by_name.map Prod.fst ++ fs.map FieldDescriptor.name := by
  induction fs generalizing m with
  | nil => simp [addFields]
  | cons f t ih =>
    have hnd' : f.name ∉ t.map FieldDescriptor.name ∧
        (t.map FieldDescriptor.name).Nodup := by
      rw [List.map_cons] at hn
      exact List.nodup_cons.mp hn
    have hins : (m.add_field f).fields_by_name =
        m.fields_by_name ++ [(f.name, m.fields.length)] :=
      lhmInsert_of_not_mem_keys (hdisj f (List.mem_cons_self f t)) _
    have step : addFields m (f :: t) = addFields (m.add_field f) t := rfl
    rw [step, ih (m.add_field f) ?_ hnd'.2]
    · rw [hins]
      simp
    · intro g hg
      rw [hins, List.map_append]
      intro hmem
      rcases List.mem_append.mp hmem with hma | hmb
      · exact hdisj g (List.mem_cons_of_mem f hg) hma
      · simp only [List.map_cons, List.map_nil, List.mem_singleton] at hmb
        exact hnd'.1 (hmb ▸ List.mem_map.mpr ⟨g, hg, rfl⟩)

theorem addFields_keys_by_number (m : MessageDescriptor) (fs : List FieldDescriptor)
    (hdisj : ∀ f ∈ fs, f.number ∉ m.fields_by_number.map Prod.fst)
    (hn : (fs.map FieldDescriptor.number).Nodup) :
    (addFields m fs).fields_by_number.map Prod.fst =
      m.fields_by_number.map Prod.fst ++ fs.map FieldDescriptor.number := by
  induction fs generalizing m with
  | nil => simp [addFields]
  | cons f t ih =>
    have hnd' : f.number ∉ t.map FieldDescriptor.number ∧
        (t.map FieldDescriptor.number).Nodup := by
      rw [List.map_cons] at hn
      exact List.nodup_cons.mp hn
    have hins : (m.add_field f).fields_by_number =
        m.fields_by_number ++ [(f.number, m.fields.length)] :=
      lhmInsert_of_not_mem_keys (hdisj f (List.mem_cons_self f t)) _
    have step : addFields m (f :: t) = addFields (m.add_field f) t := rfl
    rw [step, ih (m.add_field f) ?_ hnd'.2]
    · rw [hins]
      simp
    · intro g hg
      rw [hins, List.map_append]
      intro hmem
      rcases List.mem_append.mp hmem with hma | hmb
      · exact hdisj g (List.mem_cons_of_mem f hg) hma
      · simp only [List.map_cons, List.map_nil, List.mem_singleton] at hmb
        exact hnd'.1 (hmb ▸ List.mem_map.mpr ⟨g, hg, rfl⟩)

theorem from_proto_field_names (flp : FloatParsers) (protos : List FieldDescriptorProto)
    (acc md : MessageDescriptor)
    (h : protos.foldlM
      (fun md fproto => (FieldDescriptor.from_proto flp fproto).map md.add_field) acc =
      some md) :
    md.fields.map FieldDescriptor.name =
      acc.fields.map FieldDescriptor.name ++ protos.map FieldDescriptorProto.name := by
  induction protos generalizing acc with
  | nil =>
    simp only [List.foldlM_nil, pure, Option.some.injEq] at h
    rw [← h]
    simp
  | cons p ps ih =>
    rw [List.foldlM_cons] at h
    cases hfd : FieldDescriptor.from_proto flp p with
    | none => rw [hfd] at h; exact absurd h (by simp)
    | some fd =>
      rw [hfd] at h
      simp only [Option.map_some', Option.some_bind] at h
      rw [ih (acc.add_field fd) h]
      have hflds : (acc.add_field fd).fields = acc.fields ++ [fd] := rfl
      rw [hflds]
      simp [(FieldDescriptor.from_proto_some hfd).1]

/-- C9: fields() of a message descriptor built by any sequence of add_field
calls returns the field descriptors in exactly the order the calls were
made; when the field names (respectively numbers) are distinct, the keys of
the name index (respectively number index) appear in that same insertion
order; and a message imported from a descriptor proto keeps the declaration
order of the fields of the source proto. -/
theorem claim_C9 (s : String) (fs : List FieldDescriptor)
    (hn : (fs.map FieldDescriptor.name).Nodup)
    (hk : (fs.map FieldDescriptor.number).Nodup) :
    (addFields (MessageDescriptor.new s) fs).fields = fs ∧
    (addFields (MessageDescriptor.new s) fs).fields_by_name.map Prod.fst =
      fs.map FieldDescriptor.name ∧
    (addFields (MessageDescriptor.new s) fs).fields_by_number.map Prod.fst =
      fs.map FieldDescriptor.number ∧
    (∀ (flp : FloatParsers) (path : String) (mp : DescriptorProto)
      (md : MessageDescriptor), MessageDescriptor.from_proto flp path mp = some md →
      md.fields.map FieldDescriptor.name = mp.field.map FieldDescriptorProto.name) := by
  refine ⟨?_, ?_, ?_, ?_⟩
  · rw [addFields_fields]
    rfl
  · rw [addFields_keys_by_name (MessageDescriptor.new s) fs (by simp [MessageDescriptor.new]) hn]
    rfl
  · rw [addFields_keys_by_number (MessageDescriptor.new s) fs (by simp [MessageDescriptor.new]) hk]
    rfl
  · intro flp path mp md h
    unfold MessageDescriptor.from_proto at h
    rw [from_proto_field_names flp mp.field _ md h]
    rfl

def fEx1 : FieldDescriptor :=
  FieldDescriptor.new "a" 1 FieldLabel.Optional InternalFieldType.Int32 none true

def fEx2 : FieldDescriptor :=
  FieldDescriptor.new "b" 2 FieldLabel.Required InternalFieldType.String none false

theorem claim_C9_witness :
    (addFields (MessageDescriptor.new ".M") [fEx1, fEx2]).fields = [fEx1, fEx2] ∧
    (addFields (MessageDescriptor.new ".M") [fEx1, fEx2]).fields_by_name.map Prod.fst =
      ["a", "b"] ∧
    (addFields (MessageDescriptor.new ".M") [fEx1, fEx2]).fields_by_number.map Prod.fst =
      [1, 2] := by
  have h := claim_C9 ".M" [fEx1, fEx2] (by decide) (by decide)
  exact ⟨h.1, h.2.1, h.2.2.1⟩

/-- C2 (amended): for a message descriptor built by any sequence of
add_field calls in which all field names are distinct and all field numbers
are distinct, every stored field is found again by both lookups:
field_by_name(f.name()) and field_by_number(f.number()) both return f; the
indices are last-writer-wins, so with a duplicate name or number the lookup
returns the most recently added field instead.  Symmetrically for enum
descriptors built by add_value calls. -/
theorem claim_C2_amended :
    (∀ (s : String) (fs : List FieldDescriptor),
      (fs.map FieldDescriptor.name).Nodup → (fs.map FieldDescriptor.number).Nodup →
      ∀ f ∈ (addFields (MessageDescriptor.new s) fs).fields,
        (addFields (MessageDescriptor.new s) fs).field_by_name f.name = some f ∧
        (addFields (MessageDescriptor.new s) fs).field_by_number f.number = some f) ∧
    (∀ (s : String) (vs : List EnumValueDescriptor),
      (vs.map EnumValueDescriptor.name).Nodup →
      (vs.map EnumValueDescriptor.number).Nodup →
      ∀ v ∈ (addValues (EnumDescriptor.new s) vs).values,
        (addValues (EnumDescriptor.new s) vs).value_by_name v.name = some v ∧
        (addValues (EnumDescriptor.new s) vs).value_by_number v.number = some v) := by
  constructor
  · intro s fs hn hk f hf
    have minv : MsgInv (addFields (MessageDescriptor.new s) fs) :=
      (msgInv_new s).addFields fs
    have hflds : (addFields (MessageDescriptor.new s) fs).fields = fs := by
      rw [addFields_fields]
      rfl
    constructor
    · rcases lookup_self_of_nodup minv.byName (by rw [hflds]; exact hn) hf with
        ⟨i, hget, hsome⟩
      unfold MessageDescriptor.field_by_name
      rw [hget]
      exact hsome
    · rcases lookup_self_of_nodup minv.byNumber (by rw [hflds]; exact hk) hf with
        ⟨i, hget, hsome⟩
      unfold MessageDescriptor.field_by_number
      rw [hget]
      exact hsome
  · intro s vs hn hk v hv
    have einv : EnumInv (addValues (EnumDescriptor.new s) vs) :=
      (enumInv_new s).addValues vs
    have hvals : (addValues (EnumDescriptor.new s) vs).values = vs := by
      rw [addValues_values]
      rfl
    constructor
    · rcases lookup_self_of_nodup einv.byName (by rw [hvals]; exact hn) hv with
        ⟨i, hget, hsome⟩
      unfold EnumDescriptor.value_by_name
      rw [hget]
      exact hsome
    · rcases lookup_self_of_nodup einv.byNumber (by rw [hvals]; exact hk) hv with
        ⟨i, hget, hsome⟩
      unfold EnumDescriptor.value_by_number
      rw [hget]
      exact hsome

def vEx1 : EnumValueDescriptor := EnumValueDescriptor.new "RED" 1

def vEx2 : EnumValueDescriptor := EnumValueDescriptor.new "BLUE" 2

theorem claim_C2_amended_witness :
    (addFields (MessageDescriptor.new ".M") [fEx1, fEx2]).field_by_name "a" = some fEx1 ∧
    (addFields (MessageDescriptor.new ".M") [fEx1, fEx2]).field_by_number 2 = some fEx2 ∧
    (addValues (EnumDescriptor.new ".E") [vEx1, vEx2]).value_by_name "BLUE" = some vEx2 ∧
    (addValues (EnumDescriptor.new ".E") [vEx1, vEx2]).value_by_number 1 = some vEx1 := by
  have h := claim_C2_amended
  have h1 := h.1 ".M" [fEx1, fEx2] (by decide) (by decide) fEx1 (by decide)
  have h2 := h.1 ".M" [fEx1, fEx2] (by decide) (by decide) fEx2 (by decide)
  have h3 := h.2 ".E" [vEx1, vEx2] (by decide) (by decide) vEx1 (by decide)
  have h4 := h.2 ".E" [vEx1, vEx2] (by decide) (by decide) vEx2 (by decide)
  exact ⟨h1.1, h2.2, h4.1, h3.2⟩

def gDup1 : FieldDescriptor :=
  FieldDescriptor.new "a" 1 FieldLabel.Optional InternalFieldType.Int32 none true

def gDup2 : FieldDescriptor :=
  FieldDescriptor.new "a" 2 FieldLabel.Optional InternalFieldType.Int32 none true

def mDup : MessageDescriptor := addFields (MessageDescriptor.new ".M") [gDup1, gDup2]

/-- C2 (counterexample): in a message built by two add_field calls whose
fields share the name "a", the first field is still in fields() but
field_by_name "a" returns the second field, not the first: the claim as
stated fails for duplicate names. -/
theorem claim_C2_counterexample :
    gDup1 ∈ mDup.fields ∧ mDup.field_by_name gDup1.name = some gDup2 ∧
    gDup2 ≠ gDup1 := by
  refine ⟨by decide, by decide, by decide⟩

/-- C1 (amended): in every registry built through the public construction
API, every stored message descriptor that no later-stored message shares a
name with is returned by message_by_name applied to its own name; the name
index is last-writer-wins, so a descriptor whose name was registered again
later stays in the sequence but is shadowed in the index.  Symmetrically
for enums. -/
theorem claim_C1_amended (d : Descriptors) (hB : Built d) :
    (∀ i (hi : i < d.messages.length),
      (∀ j (hj : j < d.messages.length), i < j →
        (d.messages.get ⟨j, hj⟩).name ≠ (d.messages.get ⟨i, hi⟩).name) →
      d.message_by_name (d.messages.get ⟨i, hi⟩).name = some (d.messages.get ⟨i, hi⟩)) ∧
    (∀ i (hi : i < d.enums.length),
      (∀ j (hj : j < d.enums.length), i < j →
        (d.enums.get ⟨j, hj⟩).name ≠ (d.enums.get ⟨i, hi⟩).name) →
      d.enum_by_name (d.enums.get ⟨i, hi⟩).name = some (d.enums.get ⟨i, hi⟩)) := by
  have inv := hB.toRegInv
  constructor
  · intro i hi hlast
    have hl := inv.msgIdx.lookup_last i hi hlast
    unfold Descriptors.message_by_name
    rw [hl, Option.some_bind, List.get?_eq_get hi]
  · intro i hi hlast
    have hl := inv.enumIdx.lookup_last i hi hlast
    unfold Descriptors.enum_by_name
    rw [hl, Option.some_bind, List.get?_eq_get hi]

def mADup : MessageDescriptor := addFields (MessageDescriptor.new ".A") [fEx1]

def mAEmpty : MessageDescriptor := MessageDescriptor.new ".A"

theorem msgSafe_mADup : MsgSafe mADup :=
  ⟨".A", [fEx1], by decide, rfl⟩

theorem msgSafe_mAEmpty : MsgSafe mAEmpty :=
  ⟨".A", [], by simp, rfl⟩

def eEx : EnumDescriptor := addValues (EnumDescriptor.new ".E") [vEx1]

theorem enumSafe_eEx : EnumSafe eEx :=
  ⟨".E", [vEx1], rfl⟩

def dW : Descriptors := (Descriptors.new.add_message mADup).add_enum eEx

theorem built_dW : Built dW :=
  Built.add_enum (Built.add_message Built.new msgSafe_mADup) enumSafe_eEx

theorem claim_C1_amended_witness :
    dW.message_by_name ".A" = some mADup ∧ dW.enum_by_name ".E" = some eEx := by
  have h := claim_C1_amended dW built_dW
  have hlm : dW.messages.length = 1 := rfl
  have hle : dW.enums.length = 1 := rfl
  constructor
  · exact h.1 0 (by rw [hlm]; omega) (fun j hj h0j => by rw [hlm] at hj; omega)
  · exact h.2 0 (by rw [hle]; omega) (fun j hj h0j => by rw [hle] at hj; omega)

def dDup : Descriptors := (Descriptors.new.add_message mADup).add_message mAEmpty

theorem built_dDup : Built dDup :=
  Built.add_message (Built.add_message Built.new msgSafe_mADup) msgSafe_mAEmpty

/-- C1 (counterexample): a registry built by two add_message calls whose
descriptors share the name ".A" stores both descriptors in the message
sequence, but message_by_name ".A" returns the one added last; for the
first descriptor the claimed equation fails. -/
theorem claim_C1_counterexample :
    Built dDup ∧ dDup.messages.get? 0 = some mADup ∧
    dDup.message_by_name mADup.name = some mAEmpty ∧ mAEmpty ≠ mADup := by
  exact ⟨built_dDup, by decide, by decide, by decide⟩

/-- A string that begins with a dot. -/
def dotPrefixed (s : String) : Prop := s.data.head? = some '.'

theorem dotPrefixed_path_append (path r : String) (h : path = "" ∨ dotPrefixed path) :
    dotPrefixed (path ++ "." ++ r) := by
  unfold dotPrefixed at h ⊢
  rw [String.data_append, String.data_append]
  rcases h with h | h
  · subst h
    rfl
  · cases hd : path.data with
    | nil => rw [hd] at h; exact absurd h (by simp)
    | cons c t =>
      rw [hd] at h
      simp only [List.head?_cons, Option.some.injEq] at h
      subst h
      rfl

theorem filePackagePath_shape (pkg : Option String) :
    filePackagePath pkg = "" ∨ dotPrefixed (filePackagePath pkg) := by
  cases pkg with
  | none => exact Or.inl rfl
  | some p =>
    right
    unfold filePackagePath dotPrefixed
    rw [String.data_append]
    rfl

mutual

theorem specMessageKeys_shape (path : String) (mp : DescriptorProto) :
    ∀ k ∈ specMessageKeys path mp, ∃ r : String, k = path ++ "." ++ r := by
  intro k hk
  rw [specMessageKeys] at hk
  rcases List.mem_append.mp hk with h | h
  · rcases specMessageKeysList_shape (path ++ "." ++ mp.name) mp.nested_type k h with
      ⟨r, hr⟩
    refine ⟨mp.name ++ "." ++ r, ?_⟩
    rw [hr]
    simp [String.append_assoc]
  · rw [List.mem_singleton] at h
    exact ⟨mp.name, h⟩
termination_by sizeOf mp
decreasing_by exact DescriptorProto.sizeOf_nested mp

theorem specMessageKeysList_shape (path : String) (l : List DescriptorProto) :
    ∀ k ∈ specMessageKeysList path l, ∃ r : String, k = path ++ "." ++ r := by
  intro k hk
  rw [specMessageKeysList.eq_def] at hk
  cases l with
  | nil => exact absurd hk (by simp)
  | cons mp rest =>
    rcases List.mem_append.mp hk with h | h
    · exact specMessageKeys_shape path mp k h
    · exact specMessageKeysList_shape path rest k h
termination_by sizeOf l
decreasing_by all_goals (subst_vars; simp only [List.cons.sizeOf_spec]; omega)

end

mutual

theorem specEnumKeys_shape (path : String) (mp : DescriptorProto) :
    ∀ k ∈ specEnumKeys path mp, ∃ r : String, k = path ++ "." ++ r := by
  intro k hk
  rw [specEnumKeys] at hk
  rcases List.mem_append.mp hk with h | h
  · rcases specEnumKeysList_shape (path ++ "." ++ mp.name) mp.nested_type k h with ⟨r, hr⟩
    refine ⟨mp.name ++ "." ++ r, ?_⟩
    rw [hr]
    simp [String.append_assoc]
  · rcases List.mem_map.mp h with ⟨ep, hep, hkeq⟩
    refine ⟨mp.name ++ "." ++ ep.name, ?_⟩
    rw [← hkeq]
    simp [String.append_assoc]
termination_by sizeOf mp
decreasing_by exact DescriptorProto.sizeOf_nested mp

theorem specEnumKeysList_shape (path : String) (l : List DescriptorProto) :
    ∀ k ∈ specEnumKeysList path l, ∃ r : String, k = path ++ "." ++ r := by
  intro k hk
  rw [specEnumKeysList.eq_def] at hk
  cases l with
  | nil => exact absurd hk (by simp)
  | cons mp rest =>
    rcases List.mem_append.mp hk with h | h
    · exact specEnumKeys_shape path mp k h
    · exact specEnumKeysList_shape path rest k h
termination_by sizeOf l
decreasing_by all_goals (subst_vars; simp only [List.cons.sizeOf_spec]; omega)

end

/-- C8: importing a file descriptor registers every type under its
fully-qualified dot-joined key, and every key begins with a dot.  The file
contributes the prefix "." plus the package (the empty prefix when no
package is set); a message is keyed parent path plus "." plus its local
name; a nested message or enum is registered at the top level of the
registry under the enclosing message's fully-qualified name plus "." plus
its local name (so Inner inside .pkg.Outer is keyed ".pkg.Outer.Inner"),
as spelled out by the specMessageKeysList/specEnumKeysList schemes. -/
theorem claim_C8 (flp : FloatParsers) (d : Descriptors) (fp : FileDescriptorProto)
    (d' : Descriptors) (h : Descriptors.add_file_proto flp d fp = some d') :
    d'.messages.map MessageDescriptor.name =
      d.messages.map MessageDescriptor.name ++
        specMessageKeysList (filePackagePath fp.package) fp.message_type ∧
    d'.enums.map EnumDescriptor.name =
      d.enums.map EnumDescriptor.name ++
        specEnumKeysList (filePackagePath fp.package) fp.message_type ++
        fp.enum_type.map (fun ep => filePackagePath fp.package ++ "." ++ ep.name) ∧
    (∀ k ∈ specMessageKeysList (filePackagePath fp.package) fp.message_type,
      dotPrefixed k) ∧
    (∀ k ∈ specEnumKeysList (filePackagePath fp.package) fp.message_type,
      dotPrefixed k) ∧
    (∀ ep ∈ fp.enum_type, dotPrefixed (filePackagePath fp.package ++ "." ++ ep.name)) := by
  have hnames := add_file_proto_names flp d fp d' h
  refine ⟨hnames.1, hnames.2, ?_, ?_, ?_⟩
  · intro k hk
    rcases specMessageKeysList_shape (filePackagePath fp.package) fp.message_type k hk with
      ⟨r, hr⟩
    rw [hr]
    exact dotPrefixed_path_append _ r (filePackagePath_shape fp.package)
  · intro k hk
    rcases specEnumKeysList_shape (filePackagePath fp.package) fp.message_type k hk with
      ⟨r, hr⟩
    rw [hr]
    exact dotPrefixed_path_append _ r (filePackagePath_shape fp.package)
  · intro ep hep
    exact dotPrefixed_path_append _ ep.name (filePackagePath_shape fp.package)

/-- C10: importing a message descriptor proto inserts all of its nested
message and enum types into the registry strictly before the enclosing
message itself: the final operation is the add_message of the enclosing
descriptor, performed on a registry that already contains every nested
type, so in the insertion-ordered message sequence and name index every
nested type precedes its enclosing message, whose key is the most recent
index entry. -/
theorem claim_C10 (flp : FloatParsers) (d : Descriptors) (path : String)
    (mp : DescriptorProto) (d' : Descriptors)
    (h : Descriptors.add_message_proto flp d path mp = some d') :
    ∃ (d2 : Descriptors) (md : MessageDescriptor),
      d' = d2.add_message md ∧ md.name = path ++ "." ++ mp.name ∧
      d2.messages.map MessageDescriptor.name =
        d.messages.map MessageDescriptor.name ++
          specMessageKeysList (path ++ "." ++ mp.name) mp.nested_type ∧
      d2.enums.map EnumDescriptor.name =
        d.enums.map EnumDescriptor.name ++ specEnumKeys path mp ∧
      (d'.messages_by_name.map Prod.fst).getLast? = some (path ++ "." ++ mp.name) := by
  rw [Descriptors.add_message_proto] at h
  cases hmd : MessageDescriptor.from_proto flp path mp with
  | none => simp [hmd] at h
  | some md =>
    rw [hmd] at h
    dsimp only at h
    cases hl : Descriptors.addMessageProtoList flp d md.name mp.nested_type with
    | none => rw [hl] at h; exact absurd h (by simp)
    | some d1 =>
      rw [hl] at h
      dsimp only at h
      rw [Option.some.injEq] at h
      have hname : md.name = path ++ "." ++ mp.name := msg_from_proto_name hmd
      have h1 := addMessageProtoList_names flp d md.name mp.nested_type d1 hl
      have h2 := foldl_add_enum_names md.name mp.enum_type d1
      refine ⟨mp.enum_type.foldl
        (fun dd ep => dd.add_enum (EnumDescriptor.from_proto md.name ep)) d1, md,
        h.symm, hname, ?_, ?_, ?_⟩
      · rw [h2.2, h1.1, hname]
      · rw [h2.1, h1.2, hname]
        rw [specEnumKeys]
        rw [List.append_assoc]
      · rw [← h]
        have hkeys : ((mp.enum_type.foldl
            (fun dd ep => dd.add_enum (EnumDescriptor.from_proto md.name ep))
            d1).add_message md).messages_by_name =
            lhmInsert (mp.enum_type.foldl
              (fun dd ep => dd.add_enum (EnumDescriptor.from_proto md.name ep))
              d1).messages_by_name md.name
              (mp.enum_type.foldl
                (fun dd ep => dd.add_enum (EnumDescriptor.from_proto md.name ep))
                d1).messages.length := rfl
        rw [hkeys, lhmInsert_keys_getLast, hname]

theorem addMessageProtoList_nil (flp : FloatParsers) (d : Descriptors) (path : String) :
    Descriptors.addMessageProtoList flp d path [] = some d := by
  rw [Descriptors.addMessageProtoList.eq_def]

theorem addMessageProtoList_cons (flp : FloatParsers) (d : Descriptors) (path : String)
    (mp : DescriptorProto) (rest : List DescriptorProto) :
    Descriptors.addMessageProtoList flp d path (mp :: rest) =
      match Descriptors.add_message_proto flp d path mp with
      | none => none
      | some d1 => Descriptors.addMessageProtoList flp d1 path rest := by
  rw [Descriptors.addMessageProtoList.eq_def]

def colorProto : EnumDescriptorProto :=
  { name := "Color", value := [{ name := "BLUE", number := 1 }] }

def innerProto : DescriptorProto := DescriptorProto.mk "Inner" [] [] []

def outerProto : DescriptorProto := DescriptorProto.mk "Outer" [] [innerProto] [colorProto]

def topEnumProto : EnumDescriptorProto :=
  { name := "E", value := [{ name := "X", number := 0 }] }

def fpEx : FileDescriptorProto :=
  { package := some "pkg", message_type := [outerProto], enum_type := [topEnumProto] }

def dEx : Descriptors :=
  (((Descriptors.new.add_message
        (MessageDescriptor.new ".pkg.Outer.Inner")).add_enum
      (EnumDescriptor.from_proto ".pkg.Outer" colorProto)).add_message
    (MessageDescriptor.new ".pkg.Outer")).add_enum
    (EnumDescriptor.from_proto ".pkg" topEnumProto)

theorem specMessageKeysList_nil (path : String) : specMessageKeysList path [] = [] := by
  rw [specMessageKeysList.eq_def]

theorem specMessageKeysList_cons (path : String) (mp : DescriptorProto)
    (rest : List DescriptorProto) :
    specMessageKeysList path (mp :: rest) =
      specMessageKeys path mp ++ specMessageKeysList path rest := by
  rw [specMessageKeysList.eq_def]

theorem specEnumKeysList_nil (path : String) : specEnumKeysList path [] = [] := by
  rw [specEnumKeysList.eq_def]

theorem specEnumKeysList_cons (path : String) (mp : DescriptorProto)
    (rest : List DescriptorProto) :
    specEnumKeysList path (mp :: rest) =
      specEnumKeys path mp ++ specEnumKeysList path rest := by
  rw [specEnumKeysList.eq_def]

def dEx10 : Descriptors :=
  ((Descriptors.new.add_message
      (MessageDescriptor.new ".pkg.Outer.Inner")).add_enum
    (EnumDescriptor.from_proto ".pkg.Outer" colorProto)).add_message
    (MessageDescriptor.new ".pkg.Outer")

theorem c10inner_eval :
    Descriptors.add_message_proto flp0 Descriptors.new ".pkg.Outer" innerProto =
      some (Descriptors.new.add_message (MessageDescriptor.new ".pkg.Outer.Inner")) := by
  rw [Descriptors.add_message_proto.eq_def]
  rw [show MessageDescriptor.from_proto flp0 ".pkg.Outer" innerProto =
        some (MessageDescriptor.new ".pkg.Outer.Inner") from rfl]
  dsimp only
  rw [show innerProto.nested_type = ([] : List DescriptorProto) from rfl,
      show (MessageDescriptor.new ".pkg.Outer.Inner").name = ".pkg.Outer.Inner" from rfl,
      addMessageProtoList_nil]
  dsimp only
  rfl

theorem c10ex_eval :
    Descriptors.add_message_proto flp0 Descriptors.new ".pkg" outerProto = some dEx10 := by
  rw [Descriptors.add_message_proto.eq_def]
  rw [show MessageDescriptor.from_proto flp0 ".pkg" outerProto =
        some (MessageDescriptor.new ".pkg.Outer") from rfl]
  dsimp only
  rw [show outerProto.nested_type = [innerProto] from rfl,
      show (MessageDescriptor.new ".pkg.Outer").name = ".pkg.Outer" from rfl,
      addMessageProtoList_cons, c10inner_eval]
  dsimp only
  rw [addMessageProtoList_nil]
  dsimp only
  rfl

theorem add_file_proto_some (flp : FloatParsers) (d d1 : Descriptors)
    (fp : FileDescriptorProto) (p : String) (hp : fp.package = some p)
    (hl : Descriptors.addMessageProtoList flp d ("." ++ p) fp.message_type = some d1) :
    Descriptors.add_file_proto flp d fp =
      some (fp.enum_type.foldl
        (fun dd ep => dd.add_enum (EnumDescriptor.from_proto ("." ++ p) ep)) d1) := by
  unfold Descriptors.add_file_proto
  rw [hp]
  dsimp only
  rw [hl]

theorem c8ex_eval :
    Descriptors.add_file_proto flp0 Descriptors.new fpEx = some dEx := by
  have hl : Descriptors.addMessageProtoList flp0 Descriptors.new ("." ++ "pkg")
      fpEx.message_type = some dEx10 := by
    rw [show fpEx.message_type = [outerProto] from rfl,
        show ("." ++ "pkg" : String) = ".pkg" from rfl,
        addMessageProtoList_cons, c10ex_eval]
    dsimp only
    rw [addMessageProtoList_nil]
  rw [add_file_proto_some flp0 Descriptors.new dEx10 fpEx "pkg" rfl hl]
  rfl

theorem claim_C8_witness :
    dEx.messages.map MessageDescriptor.name = [".pkg.Outer.Inner", ".pkg.Outer"] ∧
    dEx.enums.map EnumDescriptor.name = [".pkg.Outer.Color", ".pkg.E"] ∧
    dotPrefixed ".pkg.Outer.Inner" ∧ dotPrefixed ".pkg.Outer.Color" ∧
    dotPrefixed ".pkg.E" := by
  have h := claim_C8 flp0 Descriptors.new fpEx dEx c8ex_eval
  have e1 : specMessageKeysList (filePackagePath fpEx.package) fpEx.message_type =
      [".pkg.Outer.Inner", ".pkg.Outer"] := by
    rw [show filePackagePath fpEx.package = ".pkg" from rfl,
        show fpEx.message_type = [outerProto] from rfl,
        specMessageKeysList_cons, specMessageKeysList_nil, specMessageKeys.eq_def]
    rw [show (".pkg" ++ "." ++ outerProto.name : String) = ".pkg.Outer" from rfl,
        show outerProto.nested_type = [innerProto] from rfl,
        specMessageKeysList_cons, specMessageKeysList_nil, specMessageKeys.eq_def]
    rw [show (".pkg.Outer" ++ "." ++ innerProto.name : String) = ".pkg.Outer.Inner" from rfl,
        show innerProto.nested_type = ([] : List DescriptorProto) from rfl,
        specMessageKeysList_nil]
    rfl
  have e2 : specEnumKeysList (filePackagePath fpEx.package) fpEx.message_type =
      [".pkg.Outer.Color"] := by
    rw [show filePackagePath fpEx.package = ".pkg" from rfl,
        show fpEx.message_type = [outerProto] from rfl,
        specEnumKeysList_cons, specEnumKeysList_nil, specEnumKeys.eq_def]
    rw [show (".pkg" ++ "." ++ outerProto.name : String) = ".pkg.Outer" from rfl,
        show outerProto.nested_type = [innerProto] from rfl,
        specEnumKeysList_cons, specEnumKeysList_nil, specEnumKeys.eq_def]
    rw [show (".pkg.Outer" ++ "." ++ innerProto.name : String) = ".pkg.Outer.Inner" from rfl,
        show innerProto.nested_type = ([] : List DescriptorProto) from rfl,
        specEnumKeysList_nil]
    rfl
  refine ⟨?_, ?_, ?_, ?_, ?_⟩
  · rw [h.1, e1]
    rfl
  · rw [h.2.1, e2]
    decide
  · exact h.2.2.1 ".pkg.Outer.Inner" (by rw [e1]; decide)
  · exact h.2.2.2.1 ".pkg.Outer.Color" (by rw [e2]; decide)
  · have := h.2.2.2.2 topEnumProto (by decide)
    simpa using this

theorem claim_C10_witness :
    ∃ (d2 : Descriptors) (md : MessageDescriptor),
      dEx10 = d2.add_message md ∧ md.name = ".pkg" ++ "." ++ "Outer" ∧
      d2.messages.map MessageDescriptor.name =
        Descriptors.new.messages.map MessageDescriptor.name ++
          specMessageKeysList (".pkg" ++ "." ++ "Outer") outerProto.nested_type ∧
      d2.enums.map EnumDescriptor.name =
        Descriptors.new.enums.map EnumDescriptor.name ++
          specEnumKeys ".pkg" outerProto ∧
      (dEx10.messages_by_name.map Prod.fst).getLast? = some (".pkg" ++ "." ++ "Outer") :=
  claim_C10 flp0 Descriptors.new ".pkg" outerProto dEx10 c10ex_eval

theorem get?_map_some {A B : Type} (f : A → B) (l : List A) (i : Nat) (a : A)
    (h : l.get? i = some a) : (l.map f).get? i = some (f a) := by
  rcases List.get?_eq_some.mp h with ⟨hi, hgi⟩
  rw [List.get?_eq_get (by simpa using hi)]
  simp only [List.get_eq_getElem, List.getElem_map]
  rw [List.get_eq_getElem] at hgi
  rw [hgi]

theorem resolveInternal_other (mmap emap : List (String × Nat)) (t : InternalFieldType)
    (h : ∀ n, t ≠ .UnresolvedMessage n ∧ t ≠ .UnresolvedEnum n) :
    resolveInternal mmap emap t = t := by
  cases t
  case UnresolvedMessage n => exact absurd rfl (h n).1
  case UnresolvedEnum n => exact absurd rfl (h n).2
  all_goals rfl

/-- C3: after resolve_refs, a field whose internal type was
UnresolvedMessage(n) with n present in the registry's message-name index
has type Message(handle), and the handle resolves to the same descriptor
that message_by_name(n) returns; when n is absent the field still has type
UnresolvedMessage(n); both symmetrically for UnresolvedEnum; fields of
every other type are unchanged. -/
theorem claim_C3 (d : Descriptors) (hB : Built d) (i j : Nat)
    (m : MessageDescriptor) (f : FieldDescriptor)
    (hm : d.messages.get? i = some m) (hf : m.fields.get? j = some f) :
    ∃ (m' : MessageDescriptor) (f' : FieldDescriptor),
      d.resolve_refs.messages.get? i = some m' ∧ m'.fields.get? j = some f' ∧
      (∀ n, f.field_type = .UnresolvedMessage n →
        (∀ id, lhmGet d.messages_by_name n = some id →
          f'.field_type = .Message id ∧
          ∃ M, d.resolve_refs.message_by_name n = some M ∧
            d.resolve_refs.messages.get? id = some M) ∧
        (lhmGet d.messages_by_name n = none →
          f'.field_type = .UnresolvedMessage n)) ∧
      (∀ n, f.field_type = .UnresolvedEnum n →
        (∀ id, lhmGet d.enums_by_name n = some id →
          f'.field_type = .Enum id ∧
          ∃ E, d.resolve_refs.enum_by_name n = some E ∧
            d.resolve_refs.enums.get? id = some E) ∧
        (lhmGet d.enums_by_name n = none →
          f'.field_type = .UnresolvedEnum n)) ∧
      ((∀ n, f.field_type ≠ .UnresolvedMessage n ∧ f.field_type ≠ .UnresolvedEnum n) →
        f'.field_type = f.field_type) := by
  have inv := hB.toRegInv
  refine ⟨{ m with
              fields := m.fields.map fun g =>
                { g with
                  field_type := resolveInternal d.messages_by_name d.enums_by_name
                    g.field_type } },
    { f with
      field_type := resolveInternal d.messages_by_name d.enums_by_name f.field_type },
    ?_, ?_, ?_, ?_, ?_⟩
  · exact get?_map_some _ d.messages i m hm
  · exact get?_map_some _ m.fields j f hf
  · intro n hn
    constructor
    · intro id hid
      constructor
      · show resolveInternal d.messages_by_name d.enums_by_name f.field_type = _
        rw [hn]
        simp only [resolveInternal, hid]
      · rcases inv.msgIdx.lookup_bound hid with ⟨hlt, _⟩
        have hlt' : id < d.resolve_refs.messages.length := by
          simpa [Descriptors.resolve_refs] using hlt
        refine ⟨d.resolve_refs.messages.get ⟨id, hlt'⟩, ?_, List.get?_eq_get hlt'⟩
        unfold Descriptors.message_by_name
        rw [show d.resolve_refs.messages_by_name = d.messages_by_name from rfl]
        rw [hid, Option.some_bind, List.get?_eq_get hlt']
    · intro hnone
      show resolveInternal d.messages_by_name d.enums_by_name f.field_type = _
      rw [hn]
      simp only [resolveInternal, hnone]
  · intro n hn
    constructor
    · intro id hid
      constructor
      · show resolveInternal d.messages_by_name d.enums_by_name f.field_type = _
        rw [hn]
        simp only [resolveInternal, hid]
      · rcases inv.enumIdx.lookup_bound hid with ⟨hlt, _⟩
        have hlt' : id < d.resolve_refs.enums.length := by
          simpa [Descriptors.resolve_refs] using hlt
        refine ⟨d.resolve_refs.enums.get ⟨id, hlt'⟩, ?_, List.get?_eq_get hlt'⟩
        unfold Descriptors.enum_by_name
        rw [show d.resolve_refs.enums_by_name = d.enums_by_name from rfl]
        rw [hid, Option.some_bind, List.get?_eq_get hlt']
    · intro hnone
      show resolveInternal d.messages_by_name d.enums_by_name f.field_type = _
      rw [hn]
      simp only [resolveInternal, hnone]
  · intro hother
    show resolveInternal d.messages_by_name d.enums_by_name f.field_type = _
    exact resolveInternal_other _ _ _ hother

def fRef : FieldDescriptor :=
  FieldDescriptor.new "x" 7 FieldLabel.Optional
    (InternalFieldType.UnresolvedMessage ".A") none true

def mRef : MessageDescriptor := addFields (MessageDescriptor.new ".B") [fRef]

theorem msgSafe_mRef : MsgSafe mRef :=
  ⟨".B", [fRef], by decide, rfl⟩

def dC3 : Descriptors := (Descriptors.new.add_message mRef).add_message mAEmpty

theorem built_dC3 : Built dC3 :=
  Built.add_message (Built.add_message Built.new msgSafe_mRef) msgSafe_mAEmpty

theorem claim_C3_witness :
    ∃ (m' : MessageDescriptor) (f' : FieldDescriptor),
      dC3.resolve_refs.messages.get? 0 = some m' ∧ m'.fields.get? 0 = some f' ∧
      (∀ n, fRef.field_type = .UnresolvedMessage n →
        (∀ id, lhmGet dC3.messages_by_name n = some id →
          f'.field_type = .Message id ∧
          ∃ M, dC3.resolve_refs.message_by_name n = some M ∧
            dC3.resolve_refs.messages.get? id = some M) ∧
        (lhmGet dC3.messages_by_name n = none →
          f'.field_type = .UnresolvedMessage n)) ∧
      (∀ n, fRef.field_type = .UnresolvedEnum n →
        (∀ id, lhmGet dC3.enums_by_name n = some id →
          f'.field_type = .Enum id ∧
          ∃ E, dC3.resolve_refs.enum_by_name n = some E ∧
            dC3.resolve_refs.enums.get? id = some E) ∧
        (lhmGet dC3.enums_by_name n = none →
          f'.field_type = .UnresolvedEnum n)) ∧
      ((∀ n, fRef.field_type ≠ .UnresolvedMessage n ∧
          fRef.field_type ≠ .UnresolvedEnum n) →
        f'.field_type = fRef.field_type) :=
  claim_C3 dC3 built_dC3 0 0 mRef fRef rfl rfl

theorem lookup_safe {α A : Type} [DecidableEq α] {key : A → α} {items : List A}
    {index : List (α × Nat)} (inv : IndexInv key items index) {k : α} {id : Nat}
    (h : lhmGet index k = some id) :
    id < items.length ∧
      ∃ a, (lhmGet index k).bind (fun i => items.get? i) = some a := by
  rcases inv.lookup_bound h with ⟨hi, _⟩
  exact ⟨hi, items.get ⟨id, hi⟩, by rw [h, Option.some_bind, List.get?_eq_get hi]⟩

/-- The no-panic guarantees of the steady-state read path: every id stored
in any index is within the bounds of its sequence, so message_by_name,
enum_by_name, field_by_name, field_by_number, value_by_name,
value_by_number and the field-type view never hit an out-of-bounds index;
every Message/Enum handle stored in a field is within the bounds of the
owning registry's sequences.  (The remaining read accessors of the claim,
fields(), name(), number(), field_label(), is_repeated(), is_optional() and
default_value(), are plain projections, total by construction.) -/
def ReadSafe (d : Descriptors) : Prop :=
  (∀ n id, lhmGet d.messages_by_name n = some id →
    id < d.messages.length ∧ ∃ M, d.message_by_name n = some M) ∧
  (∀ n id, lhmGet d.enums_by_name n = some id →
    id < d.enums.length ∧ ∃ E, d.enum_by_name n = some E) ∧
  (∀ m ∈ d.messages,
    (∀ n id, lhmGet m.fields_by_name n = some id →
      id < m.fields.length ∧ ∃ f, m.field_by_name n = some f) ∧
    (∀ k id, lhmGet m.fields_by_number k = some id →
      id < m.fields.length ∧ ∃ f, m.field_by_number k = some f) ∧
    (∀ f ∈ m.fields,
      (f.fieldTypeIn d).isSome = true ∧
      (∀ id, f.field_type = .Message id → id < d.messages.length) ∧
      (∀ id, f.field_type = .Enum id → id < d.enums.length))) ∧
  (∀ e ∈ d.enums,
    (∀ n id, lhmGet e.values_by_name n = some id →
      id < e.values.length ∧ ∃ v, e.value_by_name n = some v) ∧
    (∀ k id, lhmGet e.values_by_number k = some id →
      id < e.values.length ∧ ∃ v, e.value_by_number k = some v))

/-- C6: no steady-state read operation panics on a registry built through
the public API: all of the lookup accessors are total because every index
entry and every resolved handle stored by resolve_refs indexes within the
bounds of the owning registry's sequences. -/
theorem claim_C6 (d : Descriptors) (hB : Built d) : ReadSafe d := by
  have inv := hB.toRegInv
  refine ⟨?_, ?_, ?_, ?_⟩
  · intro n id h
    exact lookup_safe inv.msgIdx h
  · intro n id h
    exact lookup_safe inv.enumIdx h
  · intro m hm
    have minv := inv.msgs m hm
    refine ⟨?_, ?_, ?_⟩
    · intro n id h
      exact lookup_safe minv.byName h
    · intro k id h
      exact lookup_safe minv.byNumber h
    · intro f hf
      have hh := inv.handles m hm f hf
      refine ⟨?_, ?_, ?_⟩
      · unfold FieldDescriptor.fieldTypeIn
        cases ht : f.field_type <;>
          simp only [InternalFieldType.resolve]
        case UnresolvedMessage n =>
          cases d.message_by_name n <;> rfl
        case UnresolvedEnum n =>
          cases d.enum_by_name n <;> rfl
        case Message id =>
          rw [ht] at hh
          have hlt : id < d.messages.length := hh
          rw [List.get?_eq_get hlt]
          rfl
        case Enum id =>
          rw [ht] at hh
          have hlt : id < d.enums.length := hh
          rw [List.get?_eq_get hlt]
          rfl
        all_goals rfl
      · intro id hid
        rw [hid] at hh
        exact hh
      · intro id hid
        rw [hid] at hh
        exact hh
  · intro e he
    have einv := inv.enums e he
    refine ⟨?_, ?_⟩
    · intro n id h
      exact lookup_safe einv.byName h
    · intro k id h
      exact lookup_safe einv.byNumber h

def dC6 : Descriptors := dC3.resolve_refs

theorem built_dC6 : Built dC6 := Built.resolve_refs built_dC3

theorem claim_C6_witness : ReadSafe dC6 := claim_C6 dC6 built_dC6
